import Mathlib

/-!
Shallow embedding of the `random-picker` crate (src/config.rs, src/calc.rs,
src/picker.rs) and verification of the specification's claims about it.

Modelling conventions:
* The weight type `f64` is read over exact arithmetic: it is embedded as `ℚ`.
  Division by zero in `ℚ` is total (yielding 0), matching the shallow reading
  of the source expressions.
* `Table<T> = HashMap<T, f64>` is embedded as an association list
  `List (K × ℚ)` holding the map's entries in iteration order.  Iteration
  order of one `HashMap` value is fixed, so one `Config` value determines one
  such list.
* `Vec<f64>` results are embedded as lists; the dense per-index result vector
  of `CalcStack` is embedded as a function `ℕ → ℚ` (entries beyond the table
  length stay 0).
* `thread::available_parallelism().map(|n| n.get()).unwrap_or(4)` is an
  environment value; it is passed explicitly as the parameter `par`.
* The unbounded `loop` in `CalcStack::calc` is embedded as a fuel-indexed
  iteration `calcRun`; the fuel actually used (`measureM`) is proved
  sufficient (`runCalc` halts exactly when the loop would).
* The random source `R: RngCore` supplying 4-byte draws is embedded as a
  finite stream `List ℕ` of `u32` values; exhaustion of the stream models a
  failing `try_fill_bytes`.
-/

namespace RandomPicker

/-- Possible errors returned by functions in the crate (src/lib.rs). -/
inductive Error where
  | InvalidTable : Error
  | InvalidAmount : Error
  | RandError : Error
  | ThreadError : Error
deriving DecidableEq, Repr

/-- Configuration required by `Picker` (src/config.rs).  The `table` list
holds the `HashMap` entries in iteration order. -/
structure Config (K : Type) where
  table : List (K × ℚ)
  inversed : Bool
  repetitive : Bool

variable {K : Type}

/-- `Config::check` (src/config.rs lines 55-66): the loop returns
`InvalidTable` as soon as some value is negative, or zero under inversion;
otherwise it succeeds iff some value is strictly positive. -/
def Config.check {K : Type} (c : Config K) : Except Error Unit :=
  if ∃ kv ∈ c.table, kv.2 < 0 ∨ (c.inversed = true ∧ kv.2 = 0) then
    .error .InvalidTable
  else if ∃ kv ∈ c.table, 0 < kv.2 then .ok () else .error .InvalidTable

/-- The consecutive-pair equality scan of `Config::is_fair`
(src/config.rs lines 84-93): each value is compared with the previous one. -/
def pairEqChain : List ℚ → Bool
  | [] => true
  | [_] => true
  | a :: b :: rest => decide (a = b) && pairEqChain (b :: rest)

/-- `Config::is_fair` (src/config.rs lines 80-94). -/
def Config.is_fair {K : Type} (c : Config K) : Bool :=
  match c.check with
  | .error _ => false
  | .ok _ => pairEqChain (c.table.map Prod.snd)

/-- The table built by `Config::vec_table` after the `check` succeeded
(src/config.rs lines 99-110): drop non-positive weights when not inversed,
invert every weight otherwise. -/
def Config.rawTable {K : Type} (c : Config K) : List (K × ℚ) :=
  if c.inversed = false then c.table.filter fun kv => decide (0 < kv.2)
  else c.table.map fun kv => (kv.1, 1 / kv.2)

/-- `Config::vec_table` (src/config.rs lines 97-112). -/
def Config.vec_table {K : Type} (c : Config K) : Except Error (List (K × ℚ)) :=
  match c.check with
  | .error e => .error e
  | .ok _ => .ok c.rawTable

/-! ## The explicit-stack walker `CalcStack` (src/calc.rs lines 102-235) -/

/-- State of `CalcStack`.  The Rust `Vec` stack pushes at the end and reads
`last()`; here the stack is a list with its top at the head.  The dense
result vector `Vec<f64>` is the function `result` (0 outside the table). -/
structure MState where
  table : List ℚ
  stackSize : ℕ
  stack : List (ℕ × ℚ)
  tablePicked : List Bool
  remWidth : ℚ
  result : ℕ → ℚ

/-- Indices `≥ lo` of unpicked entries, in ascending order: the candidate
sequence scanned by `CalcStack::next_unpicked` (src/calc.rs lines 227-234),
which enumerates `table_picked`, skips the first `lo` entries and keeps the
unpicked ones. -/
def unpickedFrom (picked : List Bool) (lo : ℕ) : List ℕ :=
  ((List.range picked.length).drop lo).filter fun i => !(picked.getD i true)

/-- `CalcStack::next_unpicked`: the first unpicked index `≥ lo`, if any. -/
def nextUnpicked (picked : List Bool) (lo : ℕ) : Option ℕ :=
  (unpickedFrom picked lo).head?

/-- The indicator vector contributed to `result` by one `result[i] += prob`
update. -/
def singleF (i : ℕ) (q : ℚ) : ℕ → ℚ := fun j => if j = i then q else 0

/-- `CalcStack::go_down` (src/calc.rs lines 160-181).  Returns `none` when
the Rust method returns `false` (in which case it mutates nothing). -/
def go_down (s : MState) : Option MState :=
  if s.stackSize ≤ s.stack.length then none
  else
    match nextUnpicked s.tablePicked 0 with
    | none => none
    | some i =>
      let parentProb := ((s.stack.head?.map Prod.snd).getD 1)
      let prob := parentProb * s.table.getD i 0 / s.remWidth
      some { s with
        stack := (i, prob) :: s.stack
        tablePicked := s.tablePicked.set i true
        remWidth := s.remWidth - s.table.getD i 0
        result := s.result + singleF i prob }

/-- `CalcStack::go_right` (src/calc.rs lines 183-214). -/
def go_right (s : MState) : Option MState :=
  match s.stack with
  | [] => none
  | (iPrev, _) :: rest =>
    match nextUnpicked s.tablePicked (iPrev + 1) with
    | none => none
    | some iNext =>
      let parentProb := ((rest.head?.map Prod.snd).getD 1)
      let parentRemWidth := s.remWidth + s.table.getD iPrev 0
      let prob := parentProb * s.table.getD iNext 0 / parentRemWidth
      some { s with
        stack := (iNext, prob) :: rest
        tablePicked := (s.tablePicked.set iPrev false).set iNext true
        remWidth := parentRemWidth - s.table.getD iNext 0
        result := s.result + singleF iNext prob }

/-- The popping loop of `CalcStack::go_up_right` (src/calc.rs lines 216-225),
recursing on the stack. -/
def goUpRightAux (tbl : List ℚ) (k : ℕ) (res : ℕ → ℚ) :
    List (ℕ × ℚ) → List Bool → ℚ → Option MState
  | [], _, _ => none
  | (iPrev, _) :: rest, picked, rem =>
    let s1 : MState :=
      ⟨tbl, k, rest, picked.set iPrev false, rem + tbl.getD iPrev 0, res⟩
    match go_right s1 with
    | some s2 => some s2
    | none => goUpRightAux tbl k res rest (picked.set iPrev false)
        (rem + tbl.getD iPrev 0)

/-- `CalcStack::go_up_right`. -/
def go_up_right (s : MState) : Option MState :=
  goUpRightAux s.table s.stackSize s.result s.stack s.tablePicked s.remWidth

/-- One iteration of the `loop` in `CalcStack::calc` (src/calc.rs lines
145-158): try `go_down`, then `go_right`, then `go_up_right`; `none` means
the loop exits (only `result` is observable then, and the three failed
attempts leave `result` unchanged). -/
def stepM (s : MState) : Option MState :=
  match go_down s with
  | some s' => some s'
  | none =>
    match go_right s with
    | some s' => some s'
    | none => go_up_right s

/-- Fuel-indexed iteration of `stepM`; returns the result vector of the
state in which the loop exits. -/
def calcRun : ℕ → MState → (ℕ → ℚ)
  | 0, s => s.result
  | fuel + 1, s =>
    match stepM s with
    | none => s.result
    | some s' => calcRun fuel s'

/-- Total contribution, in an arbitrary commutative monoid, of the subtree
forest rooted below one node: children are the unpicked indices `≥ lo`
(candidates of `next_unpicked`), each contributing `f i prob` at its own
node plus its subtree, exactly as the walker's preorder accumulation does.
Instantiated at `singleF` it is the pending result mass, at `fun _ _ => 1`
the pending node count. -/
def nodeGen {M : Type} [AddCommMonoid M] (w : List ℚ) (f : ℕ → ℚ → M) :
    ℕ → ℕ → List Bool → ℚ → ℚ → M
  | 0, _, _, _, _ => 0
  | d + 1, lo, picked, rem, p =>
    ((unpickedFrom picked lo).map fun i =>
      f i (p * w.getD i 0 / rem) +
        nodeGen w f d 0 (picked.set i true) (rem - w.getD i 0)
          (p * w.getD i 0 / rem)).sum

/-- Pending contribution of the right-siblings of every stack level: for the
level whose entry is `(i, _)`, the candidates are the unpicked indices
`> i` at the parent's picked set, weighted by the parent's path probability
and the parent's remaining width. -/
def pendingSibGen {M : Type} [AddCommMonoid M] (w : List ℚ) (f : ℕ → ℚ → M)
    (k : ℕ) : List (ℕ × ℚ) → List Bool → ℚ → M
  | [], _, _ => 0
  | (i, _) :: rest, picked, rem =>
    nodeGen w f (k - rest.length) (i + 1) (picked.set i false)
      (rem + w.getD i 0) ((rest.head?.map Prod.snd).getD 1)
      + pendingSibGen w f k rest (picked.set i false) (rem + w.getD i 0)

/-- Contribution `f i p` of the node at the top of the stack. -/
def headContrib {M : Type} [AddCommMonoid M] (f : ℕ → ℚ → M) (s : MState) : M :=
  match s.stack with
  | [] => 0
  | (i, p) :: _ => f i p

/-- All contributions the walker has not yet accumulated: the subtree below
the current node plus the right-siblings at every stack level. -/
def pendingGen {M : Type} [AddCommMonoid M] (f : ℕ → ℚ → M) (s : MState) : M :=
  (if s.stack.length < s.stackSize then
    nodeGen s.table f (s.stackSize - s.stack.length) 0 s.tablePicked
      s.remWidth ((s.stack.head?.map Prod.snd).getD 1)
   else 0)
  + pendingSibGen s.table f s.stackSize s.stack s.tablePicked s.remWidth

/-- Twice the number of pending node visits plus the stack depth: a strictly
decreasing measure of the loop, used as (sufficient) fuel. -/
def measureM (s : MState) : ℕ :=
  2 * pendingGen (fun _ _ => (1 : ℕ)) s + s.stack.length

/-- `CalcStack::calc` (src/calc.rs lines 145-158): run the loop to
completion (the fuel `measureM s` is proved sufficient) and return the
accumulated result vector. -/
def CalcStack.runCalc (s : MState) : ℕ → ℚ :=
  calcRun (measureM s) s

/-- The initialisation loop of `CalcStack::new` (src/calc.rs lines 122-133):
walk the table and the picked flags together, summing unpicked weights into
`rem_width` and decrementing `stack_size` per picked entry, stopping early
if `stack_size` would drop below zero. -/
def newLoop : List ℚ → List Bool → ℕ → ℚ → ℕ × ℚ
  | _, [], sz, rem => (sz, rem)
  | [], _ :: _, sz, rem => (sz, rem)
  | wv :: ws, b :: bs, sz, rem =>
    if b = false then newLoop ws bs sz (rem + wv)
    else if sz = 0 then (sz, rem)
    else newLoop ws bs (sz - 1) rem

/-- `CalcStack::new` (src/calc.rs lines 118-143); `pick_amount` includes the
items already picked. -/
def CalcStack.new (table : List ℚ) (pick_amount : ℕ) (table_picked : List Bool) :
    MState :=
  let r := newLoop table table_picked pick_amount 0
  ⟨table, r.1, [], table_picked, r.2, 0⟩

/-! ## `Config::calc_probabilities` (src/calc.rs lines 18-99) -/

/-- `usize::div_ceil` for a positive divisor. -/
def divCeil (a b : ℕ) : ℕ := (a + b - 1) / b

/-- `cnt_threads` (src/calc.rs lines 61-64): `par` is the value of
`thread::available_parallelism().map(|n| n.get()).unwrap_or(4)`.  Note the
source takes the `max` with the table length. -/
def cntThreads (par n : ℕ) : ℕ := max par n

/-- `calc_groups` (src/calc.rs lines 65-82) as index groups: group `i`
holds the indices `i * cnt_threads + j` for `j < cnt_threads` that are
below the table length (the inner loop breaks at the first index past the
end, and indices grow with `j`, so the break behaves as this filter). -/
def calcGroups (par n : ℕ) : List (List ℕ) :=
  (List.range (divCeil n (cntThreads par n))).map fun i =>
    (List.range (cntThreads par n)).filterMap fun j =>
      if i * cntThreads par n + j < n then some (i * cntThreads par n + j)
      else none

/-- The `table_picked` vector passed to a walker: all-false with index
`i_th` set (src/calc.rs lines 75-79). -/
def pickedInit (n i_th : ℕ) : List Bool := (List.replicate n false).set i_th true

/-- The sub-result of the walker spawned for first pick `i_th`
(src/calc.rs lines 76-78 and 88). -/
def subResult (table_val : List ℚ) (pick_amount i_th : ℕ) : ℕ → ℚ :=
  CalcStack.runCalc (CalcStack.new table_val pick_amount
    (pickedInit table_val.length i_th))

/-- The join-loop body `calc_result[i].1 += table_val[i_th] * sub_prob`
(src/calc.rs lines 92-94), iterating the result entries with their index. -/
def addInto (w : ℚ) (sub : ℕ → ℚ) : List (K × ℚ) → ℕ → List (K × ℚ)
  | [], _ => []
  | kv :: rest, i => (kv.1, kv.2 + w * sub i) :: addInto w sub rest (i + 1)

/-- The general non-repetitive branch of `calc_probabilities`
(src/calc.rs lines 56-98): `calc_result` starts as the normalized table and
every walker's sub-result is merged in, group by group, in spawn order. -/
def calcGeneral (par : ℕ) (table : List (K × ℚ)) (pick_amount : ℕ) :
    Except Error (List (K × ℚ)) :=
  let table_val := table.map Prod.snd
  .ok ((calcGroups par table.length).foldl
    (fun acc grp =>
      grp.foldl
        (fun acc i_th =>
          addInto (table_val.getD i_th 0) (subResult table_val pick_amount i_th)
            acc 0)
        acc)
    table)

/-- `Config::calc_probabilities` (src/calc.rs lines 18-99). -/
def calc_probabilities (par : ℕ) (c : Config K) (pick_amount : ℕ) :
    Except Error (List (K × ℚ)) :=
  if pick_amount = 0 then .ok (c.table.map fun kv => (kv.1, 0))
  else if c.repetitive = false ∧ c.table.length < pick_amount then
    .error .InvalidAmount
  else if c.repetitive = false ∧ pick_amount = c.table.length then
    .ok (c.table.map fun kv => (kv.1, 1))
  else if c.repetitive = false ∧ c.is_fair = true then
    .ok (c.table.map fun kv => (kv.1, (pick_amount : ℚ) / (c.table.length : ℚ)))
  else
    match c.vec_table with
    | .error e => .error e
    | .ok raw =>
      let grid_width : ℚ := (raw.map Prod.snd).sum
      let table := raw.map fun kv => (kv.1, kv.2 / grid_width)
      if pick_amount = 1 then .ok table
      else if c.repetitive = true then
        .ok (table.map fun kv => (kv.1, 1 - (1 - kv.2) ^ pick_amount))
      else calcGeneral par table pick_amount

/-- The normalized table the non-shortcut branches work on. -/
def normalizedTable (c : Config K) : List (K × ℚ) :=
  c.rawTable.map fun kv => (kv.1, kv.2 / (c.rawTable.map Prod.snd).sum)

/-! ### Schedule model for the spawn/join phase

Worker threads may finish in any order; `hdl.join()` however collects them
in spawn order.  `calcGeneralSched` makes the completion order an explicit
parameter `σ`: the log records, in completion order, each worker's pure
result, and the join loop reads each worker's entry back from the log. -/

/-- Look up the sub-result a completed worker stored for thread id `i`. -/
def lookupLog (log : List (ℕ × (ℕ → ℚ))) (i : ℕ) : ℕ → ℚ :=
  ((log.find? fun e => e.1 == i).map Prod.snd).getD 0

/-- The general branch with the workers' completion order `σ` explicit. -/
def calcGeneralSched (σ : List ℕ) (par : ℕ) (table : List (K × ℚ))
    (pick_amount : ℕ) : Except Error (List (K × ℚ)) :=
  let table_val := table.map Prod.snd
  let log := σ.map fun i => (i, subResult table_val pick_amount i)
  .ok ((calcGroups par table.length).foldl
    (fun acc grp =>
      grp.foldl
        (fun acc i_th =>
          addInto (table_val.getD i_th 0) (lookupLog log i_th) acc 0)
        acc)
    table)

/-- `calc_probabilities` with the thread completion order `σ` explicit. -/
def calcProbabilitiesSched (σ : List ℕ) (par : ℕ) (c : Config K)
    (pick_amount : ℕ) : Except Error (List (K × ℚ)) :=
  if pick_amount = 0 then .ok (c.table.map fun kv => (kv.1, 0))
  else if c.repetitive = false ∧ c.table.length < pick_amount then
    .error .InvalidAmount
  else if c.repetitive = false ∧ pick_amount = c.table.length then
    .ok (c.table.map fun kv => (kv.1, 1))
  else if c.repetitive = false ∧ c.is_fair = true then
    .ok (c.table.map fun kv => (kv.1, (pick_amount : ℚ) / (c.table.length : ℚ)))
  else
    match c.vec_table with
    | .error e => .error e
    | .ok raw =>
      let grid_width : ℚ := (raw.map Prod.snd).sum
      let table := raw.map fun kv => (kv.1, kv.2 / grid_width)
      if pick_amount = 1 then .ok table
      else if c.repetitive = true then
        .ok (table.map fun kv => (kv.1, 1 - (1 - kv.2) ^ pick_amount))
      else calcGeneralSched σ par table pick_amount

/-! ## `Picker` (src/picker.rs) -/

/-- The cumulative grid built by `Picker::configure` (src/picker.rs lines
49-56): running partial sums of the table values. -/
def cumGrid : List ℚ → ℚ → List ℚ
  | [], _ => []
  | v :: rest, cur => (cur + v) :: cumGrid rest (cur + v)

/-- The fields of a built `Picker` that the picking operations read.  The
random source is supplied per call as a stream of `u32` draws. -/
structure PickerM (K : Type) where
  table : List (K × ℚ)
  grid : List ℚ
  grid_width : ℚ
  repetitive : Bool

/-- `Picker::build` / `Picker::configure` (src/picker.rs lines 29-64). -/
def Picker.build (c : Config K) : Except Error (PickerM K) :=
  match c.vec_table with
  | .error e => .error e
  | .ok tbl =>
    let grid := cumGrid (tbl.map Prod.snd) 0
    .ok ⟨tbl, grid, (grid.getLast?).getD 0, c.repetitive⟩

/-- `u32::MAX` as a rational. -/
def u32MaxQ : ℚ := 4294967295

/-- The linear search of `Picker::pick_index` (src/picker.rs lines 200-204):
`for (i, &v) in grid.iter().enumerate() { if val <= v { return i } }`. -/
def gridScan (val : ℚ) : List ℚ → ℕ → Option ℕ
  | [], _ => none
  | v :: rest, i => if val ≤ v then some i else gridScan val rest (i + 1)

/-- The value `val` computed from one 4-byte draw `r`
(src/picker.rs line 199). -/
def PickerM.scaled (p : PickerM K) (r : ℕ) : ℚ :=
  (r : ℚ) / u32MaxQ * p.grid_width

/-- `Picker::pick_index` (src/picker.rs lines 192-207), given the `u32`
value `r` read from the random source: first grid index whose cumulative
sum is `≥ val`, with `table_len() - 1` as fallback. -/
def PickerM.pick_index (p : PickerM K) (r : ℕ) : ℕ :=
  match gridScan (p.scaled r) p.grid 0 with
  | some i => i
  | none => p.table.length - 1

/-- The rejection loop of `Picker::pick_indexes` (src/picker.rs lines
176-189).  Returns the picked indexes and the unconsumed rest of the random
stream; an exhausted stream models `try_fill_bytes` failing. -/
def pickLoop (p : PickerM K) (amount : ℕ) :
    List ℕ → List Bool → List ℕ → (Except Error (List ℕ)) × List ℕ
  | rng, picked, acc =>
    if amount ≤ acc.length then (.ok acc.reverse, rng)
    else
      match rng with
      | [] => (.error .RandError, [])
      | r :: rest =>
        let i := p.pick_index r
        if p.repetitive = true then pickLoop p amount rest picked (i :: acc)
        else if picked.getD i false = true then pickLoop p amount rest picked acc
        else pickLoop p amount rest (picked.set i true) (i :: acc)

/-- `Picker::pick_indexes` (src/picker.rs lines 171-190): the amount check
comes first, before any random byte is drawn. -/
def PickerM.pick_indexes (p : PickerM K) (amount : ℕ) (rng : List ℕ) :
    (Except Error (List ℕ)) × List ℕ :=
  if p.repetitive = false ∧ p.table.length < amount then
    (.error .InvalidAmount, rng)
  else pickLoop p amount rng (List.replicate p.table.length false) []

/-! ## Specification-side enumeration of the walker's tree -/

/-- All node paths of the selection tree below a given picked set: nonempty
sequences of distinct unpicked indices of length at most `d`, first index
`≥ lo`, in the walker's visiting order (children in ascending index order,
each node before its subtree). -/
def nodeSeqsFrom : ℕ → ℕ → List Bool → List (List ℕ)
  | 0, _, _ => []
  | d + 1, lo, picked =>
    (unpickedFrom picked lo).flatMap fun i =>
      [i] :: (nodeSeqsFrom d 0 (picked.set i true)).map (i :: ·)

/-- Path probability of a node: starting from path probability `p` and
remaining width `rem`, each selection multiplies by its weight over the
current remaining width; the node's value is the probability recorded for
its last selection. -/
def seqNodeProb (w : List ℚ) : List Bool → ℚ → ℚ → List ℕ → ℚ
  | _, _, p, [] => p
  | picked, rem, p, i :: rest =>
    seqNodeProb w (picked.set i true) (rem - w.getD i 0)
      (p * w.getD i 0 / rem) rest

/-- Sum of `g` over the indices below `m`. -/
def indexSum (m : ℕ) (g : ℕ → ℚ) : ℚ := ((List.range m).map g).sum

/-! ## Basic list lemmas -/

theorem getD_set_self {α : Type} {l : List α} {i : ℕ} {b d : α}
    (h : i < l.length) : (l.set i b).getD i d = b := by
  rw [List.getD_eq_getElem?_getD, List.getElem?_set_self h]
  rfl

theorem getD_set_ne {α : Type} {l : List α} {i j : ℕ} {b d : α}
    (h : i ≠ j) : (l.set i b).getD j d = l.getD j d := by
  rw [List.getD_eq_getElem?_getD, List.getElem?_set_ne h,
    ← List.getD_eq_getElem?_getD]

theorem set_getD_eq_self {α : Type} {l : List α} {i : ℕ} {v d : α}
    (h : i < l.length) (hv : l.getD i d = v) : l.set i v = l := by
  apply List.ext_getElem?
  intro n
  rcases eq_or_ne n i with rfl | hne
  · rw [List.getElem?_set_self h, ← hv, List.getD_eq_getElem l d h,
      List.getElem?_eq_getElem h]
  · exact List.getElem?_set_ne (Ne.symm hne)

theorem drop_range_cons {n lo : ℕ} (h : lo < n) :
    (List.range n).drop lo = lo :: (List.range n).drop (lo + 1) := by
  have hlen : lo < (List.range n).length := by simpa using h
  rw [List.drop_eq_getElem_cons hlen, List.getElem_range]

theorem mem_drop_range {n i : ℕ} : ∀ lo, i ∈ (List.range n).drop lo ↔ lo ≤ i ∧ i < n := by
  intro lo
  induction lo with
  | zero => simp [List.mem_range]
  | succ m ih =>
    by_cases hm : m < n
    · have hsplit := drop_range_cons hm
      have hnd : (m :: (List.range n).drop (m + 1)).Nodup := by
        rw [← hsplit]
        exact ((List.range n).drop_sublist m).nodup (List.nodup_range n)
      have hmem : i ∈ (List.range n).drop m ↔ i = m ∨ i ∈ (List.range n).drop (m + 1) := by
        rw [hsplit]; simp
      constructor
      · intro hi
        have hi' : i ∈ (List.range n).drop m := by rw [hsplit]; exact List.mem_cons_of_mem _ hi
        have := ih.mp hi'
        rcases Nat.lt_or_ge m i with hlt | hge
        · exact ⟨hlt, this.2⟩
        · exfalso
          have : i = m := Nat.le_antisymm hge this.1
          subst this
          exact (List.nodup_cons.mp hnd).1 hi
      · intro ⟨h1, h2⟩
        have hi' : i ∈ (List.range n).drop m := ih.mpr ⟨Nat.le_of_succ_le h1, h2⟩
        rcases hmem.mp hi' with rfl | hi''
        · exact absurd h1 (by omega)
        · exact hi''
    · have : (List.range n).drop (m + 1) = [] :=
        List.drop_eq_nil_of_le (by simpa using (by omega : n ≤ m + 1))
      rw [this]
      simp only [List.not_mem_nil, false_iff]
      omega

/-! ## Lemmas about `unpickedFrom` and `nextUnpicked` -/

theorem mem_unpickedFrom {picked : List Bool} {lo i : ℕ} :
    i ∈ unpickedFrom picked lo ↔
      lo ≤ i ∧ i < picked.length ∧ picked.getD i true = false := by
  unfold unpickedFrom
  rw [List.mem_filter, mem_drop_range]
  simp [and_assoc]

theorem nodup_unpickedFrom (picked : List Bool) (lo : ℕ) :
    (unpickedFrom picked lo).Nodup :=
  (List.filter_sublist _).nodup
    (((List.range picked.length).drop_sublist lo).nodup
      (List.nodup_range picked.length))

theorem unpickedFrom_nil_of_le {picked : List Bool} {lo : ℕ}
    (h : picked.length ≤ lo) : unpickedFrom picked lo = [] := by
  unfold unpickedFrom
  rw [List.drop_eq_nil_of_le (by simpa using h)]
  rfl

theorem unpickedFrom_step_picked {picked : List Bool} {lo : ℕ}
    (h : picked.getD lo true = true) :
    unpickedFrom picked lo = unpickedFrom picked (lo + 1) := by
  by_cases hlo : lo < picked.length
  · have h' : picked[lo]?.getD true = true := by
      rw [← List.getD_eq_getElem?_getD]; exact h
    unfold unpickedFrom
    rw [drop_range_cons (by simpa using hlo)]
    simp [List.filter_cons, h']
  · rw [unpickedFrom_nil_of_le (by omega), unpickedFrom_nil_of_le (by omega)]

theorem unpickedFrom_step_unpicked {picked : List Bool} {lo : ℕ}
    (hlo : lo < picked.length) (h : picked.getD lo true = false) :
    unpickedFrom picked lo = lo :: unpickedFrom picked (lo + 1) := by
  have h' : picked[lo]?.getD true = false := by
    rw [← List.getD_eq_getElem?_getD]; exact h
  unfold unpickedFrom
  rw [drop_range_cons (by simpa using hlo)]
  simp [List.filter_cons, h']

theorem nextUnpicked_none_iff {picked : List Bool} {lo : ℕ} :
    nextUnpicked picked lo = none ↔ unpickedFrom picked lo = [] := by
  unfold nextUnpicked
  exact List.head?_eq_none_iff

theorem nextUnpicked_mem {picked : List Bool} {lo i : ℕ}
    (h : nextUnpicked picked lo = some i) :
    lo ≤ i ∧ i < picked.length ∧ picked.getD i true = false := by
  apply mem_unpickedFrom.mp
  unfold nextUnpicked at h
  exact List.mem_of_mem_head? h

theorem unpickedFrom_of_next {picked : List Bool} :
    ∀ (m lo i : ℕ), i - lo = m → nextUnpicked picked lo = some i →
      unpickedFrom picked lo = i :: unpickedFrom picked (i + 1) := by
  intro m
  induction m with
  | zero =>
    intro lo i hm h
    obtain ⟨hle, hlt, hun⟩ := nextUnpicked_mem h
    have hi : i = lo := by omega
    subst hi
    have hsplit := unpickedFrom_step_unpicked hlt hun
    exact hsplit
  | succ m ih =>
    intro lo i hm h
    obtain ⟨hle, hlt, hun⟩ := nextUnpicked_mem h
    have hlo : lo < i := by omega
    cases hpl : picked.getD lo true with
    | false =>
      exfalso
      have hsplit := unpickedFrom_step_unpicked (by omega) hpl
      unfold nextUnpicked at h
      rw [hsplit] at h
      simp at h
      omega
    | true =>
      have hsplit := unpickedFrom_step_picked hpl
      have h' : nextUnpicked picked (lo + 1) = some i := by
        unfold nextUnpicked at h ⊢
        rw [← hsplit]
        exact h
      rw [hsplit]
      exact ih (lo + 1) i (by omega) h'

theorem unpickedFrom_set_of_lt {picked : List Bool} {a lo : ℕ} (b : Bool)
    (h : a < lo) : unpickedFrom (picked.set a b) lo = unpickedFrom picked lo := by
  unfold unpickedFrom
  rw [List.length_set]
  apply List.filter_congr
  intro x hx
  have : lo ≤ x := (mem_drop_range lo).mp hx |>.1
  rw [getD_set_ne (by omega)]

/-! ## Lemmas about `nodeGen` and `pendingGen` -/

theorem nodeGen_zero {M : Type} [AddCommMonoid M] (w : List ℚ) (f : ℕ → ℚ → M)
    (lo : ℕ) (picked : List Bool) (rem p : ℚ) :
    nodeGen w f 0 lo picked rem p = 0 := rfl

theorem nodeGen_succ {M : Type} [AddCommMonoid M] (w : List ℚ) (f : ℕ → ℚ → M)
    (d lo : ℕ) (picked : List Bool) (rem p : ℚ) :
    nodeGen w f (d + 1) lo picked rem p =
      ((unpickedFrom picked lo).map fun i =>
        f i (p * w.getD i 0 / rem) +
          nodeGen w f d 0 (picked.set i true) (rem - w.getD i 0)
            (p * w.getD i 0 / rem)).sum := rfl

theorem nodeGen_of_nil {M : Type} [AddCommMonoid M] {w : List ℚ}
    {f : ℕ → ℚ → M} {d lo : ℕ} {picked : List Bool} {rem p : ℚ}
    (h : unpickedFrom picked lo = []) :
    nodeGen w f d lo picked rem p = 0 := by
  cases d with
  | zero => rfl
  | succ d => rw [nodeGen_succ, h]; rfl

theorem nodeGen_split {M : Type} [AddCommMonoid M] {w : List ℚ}
    {f : ℕ → ℚ → M} {d lo i : ℕ} {picked : List Bool} {rem p : ℚ}
    (h : nextUnpicked picked lo = some i) :
    nodeGen w f (d + 1) lo picked rem p =
      f i (p * w.getD i 0 / rem)
      + nodeGen w f d 0 (picked.set i true) (rem - w.getD i 0)
          (p * w.getD i 0 / rem)
      + nodeGen w f (d + 1) (i + 1) picked rem p := by
  rw [nodeGen_succ, unpickedFrom_of_next (i - lo) lo i rfl h, List.map_cons,
    List.sum_cons, nodeGen_succ]

theorem pendingGen_eq {M : Type} [AddCommMonoid M] (f : ℕ → ℚ → M)
    (s : MState) :
    pendingGen f s =
      nodeGen s.table f (s.stackSize - s.stack.length) 0 s.tablePicked
        s.remWidth ((s.stack.head?.map Prod.snd).getD 1)
      + pendingSibGen s.table f s.stackSize s.stack s.tablePicked s.remWidth := by
  unfold pendingGen
  by_cases h : s.stack.length < s.stackSize
  · rw [if_pos h]
  · rw [if_neg h]
    have : s.stackSize - s.stack.length = 0 := by omega
    rw [this, nodeGen_zero]

/-! ## Correctness of the walker's step functions -/

theorem go_down_spec {M : Type} [AddCommMonoid M] (f : ℕ → ℚ → M)
    {s s' : MState} (h : go_down s = some s') :
    s'.table = s.table ∧ s'.stackSize = s.stackSize ∧
    s'.stack ≠ [] ∧ s'.stack.length = s.stack.length + 1 ∧
    s'.stack.length ≤ s.stackSize ∧
    s'.result = s.result + headContrib singleF s' ∧
    pendingGen f s = headContrib f s' + pendingGen f s' := by
  unfold go_down at h
  split at h
  · exact absurd h (by simp)
  case isFalse hlen =>
    split at h
    · exact absurd h (by simp)
    case h_2 i hnext =>
      obtain ⟨-, hilen, hiun⟩ := nextUnpicked_mem hnext
      have hs := Option.some.inj h
      subst hs
      have hcancel : (s.tablePicked.set i true).set i false = s.tablePicked := by
        rw [List.set_set]
        exact set_getD_eq_self hilen hiun
      refine ⟨rfl, rfl, by simp, by simp, by simp; omega, rfl, ?_⟩
      rw [pendingGen_eq, pendingGen_eq]
      have hd : s.stackSize - s.stack.length =
          (s.stackSize - (s.stack.length + 1)) + 1 := by omega
      rw [hd, nodeGen_split hnext]
      simp only [headContrib, pendingSibGen, MState.stack, MState.table,
        MState.stackSize, MState.tablePicked, MState.remWidth,
        List.length_cons, List.head?_cons, Option.map_some', Option.getD_some]
      rw [hcancel]
      have hrem : s.remWidth - s.table.getD i 0 + s.table.getD i 0 = s.remWidth := by
        ring
      rw [hrem]
      have hlen2 : s.stackSize - (s.stack.length + 1) + 1 =
          s.stackSize - s.stack.length := by omega
      rw [hlen2]
      abel

theorem go_right_spec {M : Type} [AddCommMonoid M] (f : ℕ → ℚ → M)
    {s s' : MState} (hInv : s.stack.length ≤ s.stackSize)
    (h : go_right s = some s') :
    s'.table = s.table ∧ s'.stackSize = s.stackSize ∧
    s'.stack ≠ [] ∧ s'.stack.length = s.stack.length ∧
    s'.result = s.result + headContrib singleF s' ∧
    pendingSibGen s.table f s.stackSize s.stack s.tablePicked s.remWidth
      = headContrib f s' + pendingGen f s' := by
  unfold go_right at h
  split at h
  · exact absurd h (by simp)
  case h_2 j1 p1 rest hstk =>
    split at h
    · exact absurd h (by simp)
    case h_2 j2 hnext =>
      have hs := Option.some.inj h
      subst hs
      obtain ⟨hj2lo, hj2len, hj2un⟩ := nextUnpicked_mem hnext
      have hj12 : j1 ≠ j2 := by omega
      have hnext' : nextUnpicked (s.tablePicked.set j1 false) (j1 + 1) = some j2 := by
        unfold nextUnpicked
        rw [unpickedFrom_set_of_lt false (by omega)]
        exact hnext
      have hcancel :
          ((s.tablePicked.set j1 false).set j2 true).set j2 false =
            s.tablePicked.set j1 false := by
        rw [List.set_set]
        exact set_getD_eq_self (by simpa using hj2len)
          (by rw [getD_set_ne hj12]; exact hj2un)
      have hrest : rest.length + 1 ≤ s.stackSize := by
        rw [hstk] at hInv; simpa using hInv
      have hd : s.stackSize - rest.length = (s.stackSize - (rest.length + 1)) + 1 := by
        omega
      refine ⟨rfl, rfl, by simp, by simp [hstk], rfl, ?_⟩
      rw [hstk, pendingGen_eq]
      simp only [pendingSibGen, headContrib, MState.stack, MState.table,
        MState.stackSize, MState.tablePicked, MState.remWidth,
        List.length_cons, List.head?_cons, Option.map_some', Option.getD_some]
      rw [hcancel, hd, nodeGen_split hnext']
      have hrem : s.remWidth + s.table.getD j1 0 - s.table.getD j2 0
          + s.table.getD j2 0 = s.remWidth + s.table.getD j1 0 := by ring
      rw [hrem]
      have hlen2 : s.stackSize - (rest.length + 1) + 1 =
          s.stackSize - rest.length := by omega
      rw [hlen2]
      abel

theorem go_right_none_next {tbl : List ℚ} {k : ℕ} {picked : List Bool}
    {rem : ℚ} {res : ℕ → ℚ} {i : ℕ} {p : ℚ} {rest : List (ℕ × ℚ)}
    (h : go_right ⟨tbl, k, (i, p) :: rest, picked, rem, res⟩ = none) :
    nextUnpicked picked (i + 1) = none := by
  unfold go_right at h
  dsimp only at h
  cases hn : nextUnpicked picked (i + 1) with
  | none => rfl
  | some j => rw [hn] at h; exact absurd h (by simp)

theorem sib_top_zero {M : Type} [AddCommMonoid M] (f : ℕ → ℚ → M)
    {tbl : List ℚ} {picked : List Bool} {rem : ℚ} {i : ℕ}
    (hn : nextUnpicked picked (i + 1) = none) (d : ℕ) (p : ℚ) :
    nodeGen tbl f d (i + 1) (picked.set i false) rem p = 0 := by
  apply nodeGen_of_nil
  rw [unpickedFrom_set_of_lt false (by omega)]
  exact nextUnpicked_none_iff.mp hn

theorem goUpRightAux_spec {M : Type} [AddCommMonoid M] (f : ℕ → ℚ → M)
    (tbl : List ℚ) (k : ℕ) (res : ℕ → ℚ) :
    ∀ (stk : List (ℕ × ℚ)) (picked : List Bool) (rem : ℚ),
      stk.length ≤ k →
      go_right ⟨tbl, k, stk, picked, rem, res⟩ = none →
      ∀ {s' : MState}, goUpRightAux tbl k res stk picked rem = some s' →
        s'.stack ≠ [] ∧ s'.stack.length < stk.length ∧
        s'.stack.length ≤ s'.stackSize ∧
        s'.result = res + headContrib singleF s' ∧
        pendingSibGen tbl f k stk picked rem = headContrib f s' + pendingGen f s' := by
  intro stk
  induction stk with
  | nil =>
    intro picked rem _ _ s' h
    exact absurd h (by simp [goUpRightAux])
  | cons top rest ih =>
    obtain ⟨i, p⟩ := top
    intro picked rem hlen hgr s' h
    have htop0 : ∀ (d : ℕ) (q : ℚ),
        nodeGen tbl f d (i + 1) (picked.set i false) (rem + tbl.getD i 0) q = 0 :=
      fun d q => sib_top_zero f (go_right_none_next hgr) d q
    unfold goUpRightAux at h
    dsimp only at h
    split at h
    case h_1 s2 heq =>
      have hs := Option.some.inj h
      subst hs
      have hrl : rest.length ≤ k := by simp at hlen; omega
      obtain ⟨htb, hsz, hne, hlen', hres, hpend⟩ := go_right_spec f hrl heq
      have hlen2 : s2.stack.length = rest.length := hlen'
      have hsz2 : s2.stackSize = k := hsz
      have hres2 : s2.result = res + headContrib singleF s2 := hres
      have hpend2 : pendingSibGen tbl f k rest (picked.set i false)
          (rem + tbl.getD i 0) = headContrib f s2 + pendingGen f s2 := hpend
      refine ⟨hne, ?_, ?_, hres2, ?_⟩
      · simp only [List.length_cons]
        omega
      · rw [hlen2, hsz2]; exact hrl
      · simp only [pendingSibGen, List.length_cons]
        rw [htop0]
        rw [zero_add]
        exact hpend2
    case h_2 heq =>
      have hrl : rest.length ≤ k := by simp at hlen; omega
      obtain ⟨hne, hlen', hinv', hres, hpend⟩ :=
        ih (picked.set i false) (rem + tbl.getD i 0) hrl heq h
      refine ⟨hne, by simp; omega, hinv', hres, ?_⟩
      simp only [pendingSibGen]
      rw [htop0, zero_add]
      exact hpend

theorem goUpRightAux_none {M : Type} [AddCommMonoid M] (f : ℕ → ℚ → M)
    (tbl : List ℚ) (k : ℕ) (res : ℕ → ℚ) :
    ∀ (stk : List (ℕ × ℚ)) (picked : List Bool) (rem : ℚ),
      go_right ⟨tbl, k, stk, picked, rem, res⟩ = none →
      goUpRightAux tbl k res stk picked rem = none →
      pendingSibGen tbl f k stk picked rem = 0 := by
  intro stk
  induction stk with
  | nil => intro picked rem _ _; rfl
  | cons top rest ih =>
    obtain ⟨i, p⟩ := top
    intro picked rem hgr h
    have htop0 : ∀ (d : ℕ) (q : ℚ),
        nodeGen tbl f d (i + 1) (picked.set i false) (rem + tbl.getD i 0) q = 0 :=
      fun d q => sib_top_zero f (go_right_none_next hgr) d q
    unfold goUpRightAux at h
    dsimp only at h
    split at h
    case h_1 s2 heq => exact absurd h (by simp)
    case h_2 heq =>
      simp only [pendingSibGen]
      rw [htop0, zero_add]
      exact ih (picked.set i false) (rem + tbl.getD i 0) heq h

theorem go_down_none_down_zero {M : Type} [AddCommMonoid M] (f : ℕ → ℚ → M)
    {s : MState} (h : go_down s = none) :
    nodeGen s.table f (s.stackSize - s.stack.length) 0 s.tablePicked s.remWidth
      ((s.stack.head?.map Prod.snd).getD 1) = 0 := by
  unfold go_down at h
  split at h
  case isTrue hle =>
    have : s.stackSize - s.stack.length = 0 := by omega
    rw [this, nodeGen_zero]
  case isFalse hle =>
    split at h
    case h_1 hn => exact nodeGen_of_nil (nextUnpicked_none_iff.mp hn)
    case h_2 j hn => exact absurd h (by simp)

theorem stepM_some_spec {M : Type} [AddCommMonoid M] (f : ℕ → ℚ → M)
    {s s' : MState} (hInv : s.stack.length ≤ s.stackSize)
    (h : stepM s = some s') :
    s'.stack ≠ [] ∧ s'.stack.length ≤ s.stack.length + 1 ∧
    s'.stack.length ≤ s'.stackSize ∧
    s'.result = s.result + headContrib singleF s' ∧
    pendingGen f s = headContrib f s' + pendingGen f s' := by
  unfold stepM at h
  split at h
  case h_1 s1 heq =>
    have hs := Option.some.inj h
    subst hs
    obtain ⟨htb, hsz, hne, hlen, hle, hres, hpend⟩ := go_down_spec f heq
    exact ⟨hne, by omega, by omega, hres, hpend⟩
  case h_2 hgd =>
    split at h
    case h_1 s1 heq =>
      have hs := Option.some.inj h
      subst hs
      obtain ⟨htb, hsz, hne, hlen, hres, hpend⟩ := go_right_spec f hInv heq
      refine ⟨hne, by omega, by omega, hres, ?_⟩
      rw [pendingGen_eq, go_down_none_down_zero f hgd, zero_add]
      exact hpend
    case h_2 hgr =>
      have hgr' : go_right
          ⟨s.table, s.stackSize, s.stack, s.tablePicked, s.remWidth, s.result⟩
            = none := hgr
      obtain ⟨hne, hlen, hinv', hres, hpend⟩ :=
        goUpRightAux_spec f s.table s.stackSize s.result s.stack s.tablePicked
          s.remWidth hInv hgr' h
      refine ⟨hne, by omega, hinv', hres, ?_⟩
      rw [pendingGen_eq, go_down_none_down_zero f hgd, zero_add]
      exact hpend

theorem stepM_none_spec {M : Type} [AddCommMonoid M] (f : ℕ → ℚ → M)
    {s : MState} (h : stepM s = none) : pendingGen f s = 0 := by
  unfold stepM at h
  split at h
  case h_1 s1 heq => exact absurd h (by simp)
  case h_2 hgd =>
    split at h
    case h_1 s1 heq => exact absurd h (by simp)
    case h_2 hgr =>
      have hgr' : go_right
          ⟨s.table, s.stackSize, s.stack, s.tablePicked, s.remWidth, s.result⟩
            = none := hgr
      rw [pendingGen_eq, go_down_none_down_zero f hgd, zero_add]
      exact goUpRightAux_none f s.table s.stackSize s.result s.stack
        s.tablePicked s.remWidth hgr' h

theorem stepM_measure {s s' : MState} (hInv : s.stack.length ≤ s.stackSize)
    (h : stepM s = some s') : measureM s' < measureM s := by
  obtain ⟨hne, hlen, _, _, hpend⟩ :=
    stepM_some_spec (fun _ _ => (1 : ℕ)) hInv h
  have hhc : headContrib (fun _ _ => (1 : ℕ)) s' = 1 := by
    cases hstk : s'.stack with
    | nil => exact absurd hstk hne
    | cons a t => simp [headContrib, hstk]
  unfold measureM
  rw [hpend, hhc]
  omega

theorem calcRun_spec :
    ∀ (fuel : ℕ) (s : MState), s.stack.length ≤ s.stackSize →
      measureM s ≤ fuel →
      calcRun fuel s = s.result + pendingGen singleF s := by
  intro fuel
  induction fuel with
  | zero =>
    intro s hInv hm
    cases hstep : stepM s with
    | none =>
      show s.result = s.result + pendingGen singleF s
      rw [stepM_none_spec singleF hstep, add_zero]
    | some s' =>
      exact absurd (stepM_measure hInv hstep) (by omega)
  | succ fuel ih =>
    intro s hInv hm
    cases hstep : stepM s with
    | none =>
      have hcr : calcRun (fuel + 1) s = s.result := by
        unfold calcRun; rw [hstep]
      rw [hcr, stepM_none_spec singleF hstep, add_zero]
    | some s' =>
      have hcr : calcRun (fuel + 1) s = calcRun fuel s' := by
        conv_lhs => rw [calcRun]
        rw [hstep]
      obtain ⟨hne, hlen, hinv', hres, hpend⟩ := stepM_some_spec singleF hInv hstep
      have hm' : measureM s' ≤ fuel := by
        have := stepM_measure hInv hstep
        omega
      rw [hcr, ih s' hinv' hm', hres, hpend, add_assoc]

theorem runCalc_eq (s : MState) (hInv : s.stack.length ≤ s.stackSize) :
    CalcStack.runCalc s = s.result + pendingGen singleF s :=
  calcRun_spec (measureM s) s hInv (le_refl _)

/-! ## `CalcStack::new` -/

theorem unpickedFrom_cons (b : Bool) (bs : List Bool) :
    unpickedFrom (b :: bs) 0 =
      (if b = false then [0] else []) ++ (unpickedFrom bs 0).map (· + 1) := by
  unfold unpickedFrom
  rw [List.drop_zero, List.drop_zero, List.length_cons,
    List.range_succ_eq_map, List.filter_cons]
  have h1 : (!(b :: bs).getD 0 true) = (b == false) := by
    cases b <;> simp
  rw [h1, List.filter_map]
  have h2 : ((fun i => !(b :: bs).getD i true) ∘ Nat.succ) =
      fun i => !bs.getD i true := by
    funext i
    simp [Function.comp, List.getD_cons_succ]
  rw [h2]
  have h3 : (List.map Nat.succ (List.filter (fun i => !bs.getD i true)
      (List.range bs.length))) =
      (List.filter (fun i => !bs.getD i true) (List.range bs.length)).map
        (· + 1) := by
    apply List.map_congr_left
    intro a _
    omega
  cases b <;> simp [h3]

theorem unpickedSum_cons (wv : ℚ) (ws : List ℚ) (b : Bool) (bs : List Bool) :
    ((unpickedFrom (b :: bs) 0).map fun i => (wv :: ws).getD i 0).sum =
      (if b = false then wv else 0)
        + ((unpickedFrom bs 0).map fun i => ws.getD i 0).sum := by
  rw [unpickedFrom_cons, List.map_append, List.sum_append, List.map_map]
  have h2 : ((fun i => (wv :: ws).getD i 0) ∘ (· + 1)) =
      fun i => ws.getD i 0 := by
    funext i
    simp [Function.comp, List.getD_cons_succ]
  rw [h2]
  cases b <;> simp

theorem newLoop_spec :
    ∀ (bs : List Bool) (ws : List ℚ) (sz : ℕ) (rem : ℚ),
      bs.count true ≤ sz → bs.length = ws.length →
      newLoop ws bs sz rem =
        (sz - bs.count true,
         rem + ((unpickedFrom bs 0).map fun i => ws.getD i 0).sum) := by
  intro bs
  induction bs with
  | nil =>
    intro ws sz rem _ _
    have : unpickedFrom ([] : List Bool) 0 = [] := rfl
    cases ws <;> simp [newLoop, this]
  | cons b bs ih =>
    intro ws sz rem hcnt hlen
    cases ws with
    | nil => simp at hlen
    | cons wv ws =>
      have hlen' : bs.length = ws.length := by simpa using hlen
      cases b with
      | false =>
        have hcnt' : bs.count true ≤ sz := by
          simpa [List.count_cons] using hcnt
        show newLoop ws bs sz (rem + wv) = _
        rw [ih ws sz (rem + wv) hcnt' hlen', unpickedSum_cons]
        simp [List.count_cons]
        ring
      | true =>
        have hcnt2 : bs.count true + 1 ≤ sz := by
          simpa [List.count_cons] using hcnt
        have hsz : ¬(sz = 0) := by omega
        show (if sz = 0 then (sz, rem) else newLoop ws bs (sz - 1) rem) = _
        rw [if_neg hsz, ih ws (sz - 1) rem (by omega) hlen', unpickedSum_cons]
        simp [List.count_cons]
        omega

theorem new_spec {w : List ℚ} {picked : List Bool} {k : ℕ}
    (hlen : picked.length = w.length) (hcnt : picked.count true ≤ k) :
    CalcStack.new w k picked =
      ⟨w, k - picked.count true, [], picked,
       ((unpickedFrom picked 0).map fun i => w.getD i 0).sum, 0⟩ := by
  unfold CalcStack.new
  rw [newLoop_spec picked w k 0 hcnt hlen]
  simp

theorem pendingSibGen_nil {M : Type} [AddCommMonoid M] (w : List ℚ)
    (f : ℕ → ℚ → M) (k : ℕ) (picked : List Bool) (rem : ℚ) :
    pendingSibGen w f k [] picked rem = 0 := rfl

theorem pendingGen_init {M : Type} [AddCommMonoid M] (f : ℕ → ℚ → M)
    (w : List ℚ) (k' : ℕ) (picked : List Bool) (rem : ℚ) :
    pendingGen f ⟨w, k', [], picked, rem, 0⟩ = nodeGen w f k' 0 picked rem 1 := by
  rw [pendingGen_eq]
  show (nodeGen w f (k' - 0) 0 picked rem ((Option.map Prod.snd none).getD 1))
      + pendingSibGen w f k' [] picked rem = _
  rw [pendingSibGen_nil, add_zero, Nat.sub_zero]
  rfl

theorem runCalc_new {w : List ℚ} {picked : List Bool} {k : ℕ}
    (hlen : picked.length = w.length) (hcnt : picked.count true ≤ k) :
    CalcStack.runCalc (CalcStack.new w k picked) =
      nodeGen w singleF (k - picked.count true) 0 picked
        (((unpickedFrom picked 0).map fun i => w.getD i 0).sum) 1 := by
  rw [new_spec hlen hcnt, runCalc_eq _ (by simp), pendingGen_init]
  show (0 : ℕ → ℚ) + _ = _
  rw [zero_add]

/-! ## Sums of the walker's result entries -/

theorem listSum_apply (l : List (ℕ → ℚ)) (j : ℕ) :
    l.sum j = (l.map fun g => g j).sum := by
  induction l with
  | nil => rfl
  | cons g rest ih => simp [ih]

theorem indexSum_add (n : ℕ) (g h : ℕ → ℚ) :
    indexSum n (g + h) = indexSum n g + indexSum n h := by
  unfold indexSum
  induction List.range n with
  | nil => simp
  | cons a l ih => simp [ih]; ring

theorem indexSum_zero_fun (n : ℕ) : indexSum n (0 : ℕ → ℚ) = 0 := by
  unfold indexSum
  apply List.sum_eq_zero
  intro x hx
  obtain ⟨a, _, ha⟩ := List.mem_map.mp hx
  exact ha.symm

theorem indexSum_listSum (n : ℕ) (l : List (ℕ → ℚ)) :
    indexSum n l.sum = (l.map fun g => indexSum n g).sum := by
  induction l with
  | nil => simpa using indexSum_zero_fun n
  | cons g rest ih => simp [indexSum_add, ih]

theorem indexSum_succ (m : ℕ) (g : ℕ → ℚ) :
    indexSum (m + 1) g = indexSum m g + g m := by
  simp [indexSum, List.range_succ]

theorem indexSum_of_zero {n : ℕ} {g : ℕ → ℚ} (h : ∀ j < n, g j = 0) :
    indexSum n g = 0 := by
  apply List.sum_eq_zero
  intro x hx
  obtain ⟨a, ha, hax⟩ := List.mem_map.mp hx
  rw [← hax]
  exact h a (List.mem_range.mp ha)

theorem indexSum_singleF {n i : ℕ} (h : i < n) (q : ℚ) :
    indexSum n (singleF i q) = q := by
  induction n with
  | zero => omega
  | succ m ih =>
    rw [indexSum_succ]
    by_cases him : i < m
    · rw [ih him]
      have : singleF i q m = 0 := by
        unfold singleF
        rw [if_neg (by omega)]
      rw [this, add_zero]
    · have hi : i = m := by omega
      subst hi
      have h0 : indexSum i (singleF i q) = 0 := by
        apply indexSum_of_zero
        intro j hj
        unfold singleF
        rw [if_neg (by omega)]
      have h1 : singleF i q i = q := by
        unfold singleF
        rw [if_pos rfl]
      rw [h0, h1, zero_add]

theorem unpickedFrom_set_true {picked : List Bool} {i : ℕ}
    (hi : i < picked.length) (hun : picked.getD i true = false) :
    unpickedFrom (picked.set i true) 0 = (unpickedFrom picked 0).erase i := by
  rw [(nodup_unpickedFrom picked 0).erase_eq_filter]
  unfold unpickedFrom
  rw [List.length_set, List.drop_zero, List.filter_filter]
  apply List.filter_congr
  intro j hj
  rcases eq_or_ne j i with rfl | hne
  · rw [getD_set_self hi]
    simp
  · rw [getD_set_ne (Ne.symm hne)]
    simp [hne]

theorem erase_map_sum {cands : List ℕ} {i : ℕ} (h : i ∈ cands)
    (g : ℕ → ℚ) :
    ((cands.erase i).map g).sum = (cands.map g).sum - g i := by
  have hperm := (List.perm_cons_erase h).map g
  rw [hperm.sum_eq, List.map_cons, List.sum_cons]
  ring

theorem sum_nodeGen (w : List ℚ) :
    ∀ (d : ℕ) (picked : List Bool) (p : ℚ),
      picked.length = w.length →
      (∀ i ∈ unpickedFrom picked 0, 0 < w.getD i 0) →
      d ≤ (unpickedFrom picked 0).length →
      indexSum w.length
        (nodeGen w singleF d 0 picked
          (((unpickedFrom picked 0).map fun i => w.getD i 0).sum) p)
      = (d : ℚ) * p := by
  intro d
  induction d with
  | zero =>
    intro picked p _ _ _
    rw [nodeGen_zero, indexSum_zero_fun]
    simp
  | succ d ih =>
    intro picked p hlen hpos hd
    set cands := unpickedFrom picked 0 with hcands
    set rem : ℚ := (cands.map fun i => w.getD i 0).sum with hrem
    have hcne : cands ≠ [] := by
      intro hc
      rw [hc] at hd
      simp at hd
    have hrempos : 0 < rem := by
      apply List.sum_pos
      · intro x hx
        obtain ⟨a, ha, hax⟩ := List.mem_map.mp hx
        rw [← hax]
        exact hpos a ha
      · simpa using hcne
    have hremne : rem ≠ 0 := ne_of_gt hrempos
    rw [nodeGen_succ, indexSum_listSum, List.map_map]
    have hterm : ∀ i ∈ cands,
        ((fun g => indexSum w.length g) ∘ fun i =>
          singleF i (p * w.getD i 0 / rem) +
            nodeGen w singleF d 0 (picked.set i true) (rem - w.getD i 0)
              (p * w.getD i 0 / rem)) i
        = ((d : ℚ) + 1) * (p * w.getD i 0 / rem) := by
      intro i hic
      obtain ⟨-, hilen, hiun⟩ := mem_unpickedFrom.mp hic
      have herase : unpickedFrom (picked.set i true) 0 = cands.erase i :=
        unpickedFrom_set_true hilen hiun
      have hrem' : rem - w.getD i 0 =
          ((unpickedFrom (picked.set i true) 0).map fun j => w.getD j 0).sum := by
        rw [herase, erase_map_sum hic]
      have hih := ih (picked.set i true) (p * w.getD i 0 / rem)
        (by rw [List.length_set]; exact hlen)
        (by
          intro j hj
          apply hpos
          rw [herase] at hj
          exact List.mem_of_mem_erase hj)
        (by
          rw [herase, List.length_erase_of_mem hic]
          omega)
      rw [← hrem'] at hih
      simp only [Function.comp]
      rw [indexSum_add, indexSum_singleF (by omega), hih]
      ring
    rw [List.map_congr_left hterm, List.sum_map_mul_left]
    have hfac : ∀ i ∈ cands, p * w.getD i 0 / rem = (p / rem) * w.getD i 0 := by
      intro i _
      ring
    rw [List.map_congr_left hfac, List.sum_map_mul_left, ← hrem]
    rw [div_mul_cancel₀ p hremne]
    push_cast
    ring

/-! ## The walker's tree as an explicit list of visited sequences -/

theorem nodeSeqs_ne_nil :
    ∀ (d lo : ℕ) (picked : List Bool) (s : List ℕ),
      s ∈ nodeSeqsFrom d lo picked → s ≠ [] := by
  intro d
  cases d with
  | zero => intro lo picked s hs; exact absurd hs (by simp [nodeSeqsFrom])
  | succ d =>
    intro lo picked s hs
    rw [nodeSeqsFrom, List.mem_flatMap] at hs
    obtain ⟨i, _, hs⟩ := hs
    rcases List.mem_cons.mp hs with hs | hs
    · simp [hs]
    · obtain ⟨t, _, ht⟩ := List.mem_map.mp hs
      simp [← ht]

theorem nodeSeqs_head :
    ∀ {d : ℕ} {picked : List Bool} {i : ℕ} {s : List ℕ},
      s ∈ ([i] :: (nodeSeqsFrom d 0 (picked.set i true)).map (i :: ·)) →
      s.head? = some i := by
  intro d picked i s hs
  rcases List.mem_cons.mp hs with hs | hm
  · rw [hs]
    rfl
  · obtain ⟨t, _, ht⟩ := List.mem_map.mp hm
    rw [← ht]
    rfl

theorem nodeSeqs_nodup :
    ∀ (d lo : ℕ) (picked : List Bool), (nodeSeqsFrom d lo picked).Nodup := by
  intro d
  induction d with
  | zero => intro lo picked; simp [nodeSeqsFrom]
  | succ d ih =>
    intro lo picked
    rw [nodeSeqsFrom, List.nodup_flatMap]
    constructor
    · intro i _
      rw [List.nodup_cons]
      constructor
      · intro hmem
        obtain ⟨t, htm, ht⟩ := List.mem_map.mp hmem
        have : t = [] := by
          have := List.cons.injEq i t i ([] : List ℕ) ▸ ht
          exact (List.cons.inj ht).2
        exact nodeSeqs_ne_nil d 0 (picked.set i true) t htm this
      · refine List.Nodup.map ?_ (ih 0 (picked.set i true))
        intro a b hab
        exact (List.cons.inj hab).2
    · have hnd := nodup_unpickedFrom picked lo
      refine hnd.imp ?_
      intro a b hab
      rw [Function.onFun, List.disjoint_left]
      intro s hsa hsb
      have ha := nodeSeqs_head (d := d) hsa
      have hb := nodeSeqs_head (d := d) hsb
      rw [ha] at hb
      exact hab (Option.some.inj hb)

theorem mem_nodeSeqs :
    ∀ (d lo : ℕ) (picked : List Bool) (s : List ℕ),
      s ∈ nodeSeqsFrom d lo picked ↔
        s ≠ [] ∧ s.length ≤ d ∧ s.Nodup ∧
        (∀ x ∈ s, x < picked.length ∧ picked.getD x true = false) ∧
        lo ≤ s.headD 0 := by
  intro d
  induction d with
  | zero =>
    intro lo picked s
    simp only [nodeSeqsFrom, List.not_mem_nil, false_iff]
    intro ⟨hne, hlen, _⟩
    cases s with
    | nil => exact hne rfl
    | cons a t => simp at hlen
  | succ d ih =>
    intro lo picked s
    rw [nodeSeqsFrom, List.mem_flatMap]
    constructor
    · rintro ⟨i, hic, hs⟩
      obtain ⟨hloi, hilen, hiun⟩ := mem_unpickedFrom.mp hic
      rcases List.mem_cons.mp hs with hs | hs
      case _ =>
        subst hs
        refine ⟨by simp, by simp, by simp, ?_, by simpa using hloi⟩
        intro x hx
        rw [List.mem_singleton] at hx
        subst hx
        exact ⟨hilen, hiun⟩
      case _ =>
        obtain ⟨t, htm, ht⟩ := List.mem_map.mp hs
        obtain ⟨htne, htlen, htnd, htall, -⟩ := (ih 0 (picked.set i true) t).mp htm
        subst ht
        have hall : ∀ x ∈ t, x < picked.length ∧ picked.getD x true = false ∧ x ≠ i := by
          intro x hx
          obtain ⟨hx1, hx2⟩ := htall x hx
          rw [List.length_set] at hx1
          rcases eq_or_ne x i with rfl | hne
          · rw [getD_set_self hilen] at hx2
            exact absurd hx2 (by simp)
          · rw [getD_set_ne (Ne.symm hne)] at hx2
            exact ⟨hx1, hx2, hne⟩
        refine ⟨by simp, by simpa using htlen, ?_, ?_, by simpa using hloi⟩
        · rw [List.nodup_cons]
          exact ⟨fun hit => ((hall i hit).2.2 rfl), htnd⟩
        · intro x hx
          rcases List.mem_cons.mp hx with rfl | hx
          · exact ⟨hilen, hiun⟩
          · exact ⟨(hall x hx).1, (hall x hx).2.1⟩
    · rintro ⟨hne, hlen, hnd, hall, hhead⟩
      cases s with
      | nil => exact absurd rfl hne
      | cons i t =>
        have hhead' : lo ≤ i := by simpa using hhead
        obtain ⟨hilen, hiun⟩ := hall i (by simp)
        have hic : i ∈ unpickedFrom picked lo :=
          mem_unpickedFrom.mpr ⟨hhead', hilen, hiun⟩
        refine ⟨i, hic, ?_⟩
        cases t with
        | nil => exact List.mem_cons_self _ _
        | cons b u =>
          refine List.mem_cons_of_mem _ (List.mem_map.mpr ⟨b :: u, ?_, rfl⟩)
          rw [List.nodup_cons] at hnd
          apply (ih 0 (picked.set i true) (b :: u)).mpr
          refine ⟨by simp, by simpa using hlen, hnd.2, ?_, by simp⟩
          intro x hx
          have hxi : x ≠ i := fun hxi => hnd.1 (hxi ▸ hx)
          obtain ⟨hx1, hx2⟩ := hall x (List.mem_cons_of_mem _ hx)
          rw [List.length_set]
          rw [getD_set_ne (Ne.symm hxi)]
          exact ⟨hx1, hx2⟩

theorem sum_flat_filter_map {α β : Type} (l : List α) (F : α → List β)
    (q : β → Bool) (g : β → ℚ) :
    (((l.flatMap F).filter q).map g).sum =
      (l.map fun x => (((F x).filter q).map g).sum).sum := by
  induction l with
  | nil => rfl
  | cons a l ih =>
    rw [List.flatMap_cons, List.filter_append, List.map_append,
      List.sum_append, ih, List.map_cons, List.sum_cons]

theorem nodeGen_seq (w : List ℚ) (j : ℕ) :
    ∀ (d lo : ℕ) (picked : List Bool) (rem p : ℚ),
      nodeGen w singleF d lo picked rem p j =
        (((nodeSeqsFrom d lo picked).filter fun s => s.getLast? == some j).map
          (seqNodeProb w picked rem p)).sum := by
  intro d
  induction d with
  | zero =>
    intro lo picked rem p
    simp [nodeGen_zero, nodeSeqsFrom]
  | succ d ih =>
    intro lo picked rem p
    rw [nodeGen_succ, nodeSeqsFrom, listSum_apply, List.map_map,
      sum_flat_filter_map]
    congr 1
    apply List.map_congr_left
    intro i hic
    simp only [Function.comp, Pi.add_apply]
    rw [List.filter_cons]
    have hlast1 : (([i] : List ℕ).getLast? == some j) = (decide (j = i)) := by
      rw [List.getLast?_singleton]
      rcases eq_or_ne i j with rfl | hne
      · simp
      · simp [hne, Ne.symm hne]
    have hfilt : ((nodeSeqsFrom d 0 (picked.set i true)).map (i :: ·)).filter
        (fun s => s.getLast? == some j)
        = ((nodeSeqsFrom d 0 (picked.set i true)).filter
            (fun s => s.getLast? == some j)).map (i :: ·) := by
      rw [List.filter_map]
      congr 1
      apply List.filter_congr
      intro t htm
      have htne := nodeSeqs_ne_nil d 0 (picked.set i true) t htm
      cases t with
      | nil => exact absurd rfl htne
      | cons b u => simp [Function.comp, List.getLast?_cons_cons]
    have hmapg : ∀ (X : List (List ℕ)),
        ((X.map (i :: ·)).map (seqNodeProb w picked rem p)) =
          X.map (seqNodeProb w (picked.set i true) (rem - w.getD i 0)
            (p * w.getD i 0 / rem)) := by
      intro X
      rw [List.map_map]
      apply List.map_congr_left
      intro t _
      rfl
    rw [hlast1]
    by_cases hji : j = i
    · subst hji
      rw [if_pos (by simp), List.map_cons, List.sum_cons, hfilt, hmapg,
        ← ih 0 (picked.set j true) (rem - w.getD j 0) (p * w.getD j 0 / rem)]
      have hg1 : seqNodeProb w picked rem p [j] = p * w.getD j 0 / rem := rfl
      rw [hg1]
      have hsF : singleF j (p * w.getD j 0 / rem) j = p * w.getD j 0 / rem := by
        simp [singleF]
      rw [hsF]
    · rw [if_neg (by simpa using hji), hfilt, hmapg,
        ← ih 0 (picked.set i true) (rem - w.getD i 0) (p * w.getD i 0 / rem)]
      have hsF : singleF i (p * w.getD i 0 / rem) j = 0 := by
        simp [singleF, hji]
      rw [hsF, zero_add]

/-! ## Facts about `check`, `vec_table` and `Picker::build` -/

theorem check_ok_iff (c : Config K) :
    c.check = .ok () ↔
      ((∀ kv ∈ c.table, ¬(kv.2 < 0 ∨ (c.inversed = true ∧ kv.2 = 0))) ∧
       ∃ kv ∈ c.table, 0 < kv.2) := by
  unfold Config.check
  by_cases hP : ∃ kv ∈ c.table, kv.2 < 0 ∨ (c.inversed = true ∧ kv.2 = 0)
  · rw [if_pos hP]
    apply iff_of_false (by simp)
    rintro ⟨hall, -⟩
    obtain ⟨kv, hkv, hbad⟩ := hP
    exact hall kv hkv hbad
  · rw [if_neg hP]
    by_cases hQ : ∃ kv ∈ c.table, 0 < kv.2
    · rw [if_pos hQ]
      exact iff_of_true rfl ⟨fun kv hkv hbad => hP ⟨kv, hkv, hbad⟩, hQ⟩
    · rw [if_neg hQ]
      apply iff_of_false (by simp)
      rintro ⟨-, hq⟩
      exact hQ hq

theorem check_ok_pos {c : Config K} (h : c.check = .ok ()) :
    ∃ kv ∈ c.table, 0 < kv.2 := ((check_ok_iff c).mp h).2

theorem check_ok_table_ne_nil {c : Config K} (h : c.check = .ok ()) :
    c.table ≠ [] := by
  obtain ⟨kv, hkv, -⟩ := check_ok_pos h
  exact List.ne_nil_of_mem hkv

theorem vec_table_ok {c : Config K} {t : List (K × ℚ)}
    (h : c.vec_table = .ok t) : c.check = .ok () ∧ t = c.rawTable := by
  unfold Config.vec_table at h
  cases hc : c.check with
  | error e => rw [hc] at h; exact absurd h (by simp)
  | ok u =>
    cases u
    rw [hc] at h
    exact ⟨rfl, (Except.ok.inj h).symm⟩

theorem vec_table_of_check {c : Config K} (h : c.check = .ok ()) :
    c.vec_table = .ok c.rawTable := by
  unfold Config.vec_table
  rw [h]

theorem rawTable_ne_nil {c : Config K} (h : c.check = .ok ()) :
    c.rawTable ≠ [] := by
  obtain ⟨kv, hkv, hpos⟩ := check_ok_pos h
  unfold Config.rawTable
  by_cases hinv : c.inversed = false
  · rw [if_pos hinv]
    apply List.ne_nil_of_mem (a := kv)
    rw [List.mem_filter]
    exact ⟨hkv, by simpa using hpos⟩
  · rw [if_neg hinv]
    intro hmap
    rw [List.map_eq_nil] at hmap
    rw [hmap] at hkv
    exact absurd hkv (List.not_mem_nil kv)

theorem build_spec {c : Config K} {p : PickerM K}
    (hb : Picker.build c = .ok p) :
    c.check = .ok () ∧ p.table = c.rawTable ∧
    p.grid = cumGrid (c.rawTable.map Prod.snd) 0 ∧
    p.grid_width = (cumGrid (c.rawTable.map Prod.snd) 0).getLast?.getD 0 ∧
    p.repetitive = c.repetitive := by
  unfold Picker.build at hb
  split at hb
  case h_1 e heq => exact absurd hb (by simp)
  case h_2 tbl heq =>
    obtain ⟨hchk, hraw⟩ := vec_table_ok heq
    subst hraw
    have hp := Except.ok.inj hb
    subst hp
    exact ⟨hchk, rfl, rfl, rfl, rfl⟩

/-! ## Shared branch lemmas for `calc_probabilities` -/

theorem calc_full_len (c : Config K) (par : ℕ)
    (hchk : c.check = .ok ()) (hrep : c.repetitive = false) :
    calc_probabilities par c c.table.length =
      .ok (c.table.map fun kv => (kv.1, 1)) := by
  have hne : c.table ≠ [] := check_ok_table_ne_nil hchk
  have hlen : ¬(c.table.length = 0) := by
    intro h
    exact hne (List.length_eq_zero.mp h)
  unfold calc_probabilities
  rw [if_neg hlen,
    if_neg (by rintro ⟨-, h2⟩; exact absurd h2 (lt_irrefl _)),
    if_pos ⟨hrep, rfl⟩]

theorem pick_indexes_guard (p : PickerM K) (amount : ℕ) (rng : List ℕ)
    (hrep : p.repetitive = false) (hA : p.table.length < amount) :
    p.pick_indexes amount rng = (.error .InvalidAmount, rng) := by
  unfold PickerM.pick_indexes
  rw [if_pos ⟨hrep, hA⟩]

/-! ## Claim theorems -/

/-- C1: for every table of positive normalized weights of size `n`, every
target sample size `k` with `1 < k < n`, and every prefix of distinct
pre-picked indices of size at most `k` (given as the picked-flags vector),
`CalcStack::calc` enumerates every completion of the without-replacement
draw sequence reachable from that prefix — the visited nodes are exactly the
nonempty duplicate-free sequences of unpicked indices of length at most
`k - |prefix|`, listed in ascending-index preorder without repetition — and
the result vector's entry `j` is the sum of the path probabilities (product
along the path of weight over remaining unpicked weight mass) of the visited
nodes whose most recently selected index is `j`. -/
theorem claim_C1 (w : List ℚ) (k : ℕ) (picked : List Bool)
    (hlen : picked.length = w.length)
    (hpos : ∀ q ∈ w, 0 < q) (hnorm : w.sum = 1)
    (hk1 : 1 < k) (hk2 : k < w.length)
    (hcnt : picked.count true ≤ k) :
    (nodeSeqsFrom (k - picked.count true) 0 picked).Nodup ∧
    (∀ s : List ℕ, s ∈ nodeSeqsFrom (k - picked.count true) 0 picked ↔
      (s ≠ [] ∧ s.length ≤ k - picked.count true ∧ s.Nodup ∧
       ∀ x ∈ s, x < picked.length ∧ picked.getD x true = false)) ∧
    (∀ j < w.length,
      CalcStack.runCalc (CalcStack.new w k picked) j =
        (((nodeSeqsFrom (k - picked.count true) 0 picked).filter
            fun s => s.getLast? == some j).map
          (seqNodeProb w picked
            (((unpickedFrom picked 0).map fun i => w.getD i 0).sum) 1)).sum) := by
  refine ⟨nodeSeqs_nodup _ _ _, ?_, ?_⟩
  · intro s
    rw [mem_nodeSeqs]
    constructor
    · rintro ⟨h1, h2, h3, h4, -⟩
      exact ⟨h1, h2, h3, h4⟩
    · rintro ⟨h1, h2, h3, h4⟩
      exact ⟨h1, h2, h3, h4, by omega⟩
  · intro j hj
    rw [runCalc_new hlen hcnt]
    exact nodeGen_seq w j (k - picked.count true) 0 picked _ 1

theorem claim_C1_witness :
    (([false, false, false] : List Bool).length =
      ([1/2, 1/4, 1/4] : List ℚ).length) ∧
    (∀ q ∈ ([1/2, 1/4, 1/4] : List ℚ), 0 < q) ∧
    ([1/2, 1/4, 1/4] : List ℚ).sum = 1 ∧
    1 < 2 ∧ 2 < ([1/2, 1/4, 1/4] : List ℚ).length ∧
    ([false, false, false] : List Bool).count true ≤ 2 ∧
    (nodeSeqsFrom (2 - ([false, false, false] : List Bool).count true) 0
      [false, false, false]).Nodup :=
  ⟨rfl, by norm_num, by norm_num, by norm_num, by norm_num, by decide,
    (claim_C1 [1/2, 1/4, 1/4] 2 [false, false, false] rfl
      (by norm_num) (by norm_num) (by norm_num) (by norm_num) (by decide)).1⟩

/-- C3 (code bug evaluated at a failing input): with available parallelism 4
and a table of 5 entries, `cnt_threads = max(4, 5) = 5` — the source takes
the `max` of the parallelism and the table length instead of the `min` — so
the grouping degenerates to a single group of 5 indices and 5 worker
threads are spawned concurrently, exceeding the available parallelism 4;
the claimed sequential processing of parallelism-sized groups never
happens. -/
theorem claim_C3 :
    cntThreads 4 5 = 5 ∧
    calcGroups 4 5 = [[0, 1, 2, 3, 4]] ∧
    (calcGroups 4 5).map List.length = [5] ∧
    4 < 5 := by
  refine ⟨by decide, by decide, by decide, by decide⟩

/-- C4: for every valid table with `repetitive = false` and pick amount
equal to the table size, `calc_probabilities` succeeds and every returned
probability is exactly 1. -/
theorem claim_C4 (c : Config K) (par : ℕ)
    (hchk : c.check = .ok ()) (hrep : c.repetitive = false) :
    calc_probabilities par c c.table.length =
      .ok (c.table.map fun kv => (kv.1, 1)) :=
  calc_full_len c par hchk hrep

theorem claim_C4_witness :
    (Config.check ⟨[(0, 1), (1, 2)], false, false⟩ = .ok ()) ∧
    calc_probabilities 4 (⟨[(0, 1), (1, 2)], false, false⟩ : Config ℕ)
      (⟨[(0, 1), (1, 2)], false, false⟩ : Config ℕ).table.length =
      .ok ([((0 : ℕ), (1 : ℚ)), (1, 1)]) := by
  have hchk : Config.check (⟨[(0, 1), (1, 2)], false, false⟩ : Config ℕ) =
      .ok () := by
    unfold Config.check
    rw [if_neg, if_pos]
    · exact ⟨(0, 1), by norm_num⟩
    · rintro ⟨kv, hkv, hbad⟩
      rcases List.mem_cons.mp hkv with h | h
      · rw [h] at hbad; norm_num at hbad
      · rw [List.mem_singleton] at h; rw [h] at hbad; norm_num at hbad
  exact ⟨hchk, claim_C4 ⟨[(0, 1), (1, 2)], false, false⟩ 4 hchk rfl⟩

/-- C5: for every valid table with `repetitive = true` and every
`k ≥ 1`, `calc_probabilities` returns, for each item with normalized
weight `w`, exactly `1 - (1 - w) ^ k`. -/
theorem claim_C5 (c : Config K) (par k : ℕ)
    (hchk : c.check = .ok ()) (hrep : c.repetitive = true) (hk : 1 ≤ k) :
    calc_probabilities par c k =
      .ok ((normalizedTable c).map fun kv => (kv.1, 1 - (1 - kv.2) ^ k)) := by
  have hrep' : ∀ (P : Prop), ¬(c.repetitive = false ∧ P) := by
    rintro P ⟨h, -⟩
    rw [hrep] at h
    exact absurd h (by simp)
  unfold calc_probabilities
  rw [if_neg (by omega), if_neg (hrep' _), if_neg (hrep' _), if_neg (hrep' _),
    vec_table_of_check hchk]
  show (if k = 1 then _ else _) = _
  by_cases hk1 : k = 1
  · subst hk1
    rw [if_pos rfl]
    have hfun : (fun kv : K × ℚ => (kv.1, 1 - (1 - kv.2) ^ 1)) =
        fun kv : K × ℚ => kv := by
      funext kv
      obtain ⟨a, b⟩ := kv
      simp only [pow_one, Prod.mk.injEq]
      exact ⟨trivial, by ring⟩
    show Except.ok (normalizedTable c) = _
    rw [hfun, List.map_id']
  · rw [if_neg hk1, if_pos hrep]
    rfl

theorem claim_C5_witness :
    (Config.check ⟨[(0, 1), (1, 3)], false, true⟩ = .ok ()) ∧
    calc_probabilities 4 (⟨[(0, 1), (1, 3)], false, true⟩ : Config ℕ) 2 =
      .ok ((normalizedTable (⟨[(0, 1), (1, 3)], false, true⟩ : Config ℕ)).map
        fun kv => (kv.1, 1 - (1 - kv.2) ^ 2)) := by
  have hchk : Config.check (⟨[(0, 1), (1, 3)], false, true⟩ : Config ℕ) =
      .ok () := by
    unfold Config.check
    rw [if_neg, if_pos]
    · exact ⟨(0, 1), by norm_num⟩
    · rintro ⟨kv, hkv, hbad⟩
      rcases List.mem_cons.mp hkv with h | h
      · rw [h] at hbad; norm_num at hbad
      · rw [List.mem_singleton] at h; rw [h] at hbad; norm_num at hbad
  exact ⟨hchk, claim_C5 ⟨[(0, 1), (1, 3)], false, true⟩ 4 2 hchk rfl
    (by norm_num)⟩

/-- C7: `Config::check` returns `InvalidTable` if the table is empty, if any
weight is negative, or if inversion is requested and some weight is exactly
zero; and it succeeds if and only if no weight fails those checks and at
least one weight is strictly positive. -/
theorem claim_C7 (c : Config K) :
    ((c.table = [] → c.check = .error .InvalidTable) ∧
     (∀ kv ∈ c.table, kv.2 < 0 → c.check = .error .InvalidTable) ∧
     (c.inversed = true → ∀ kv ∈ c.table, kv.2 = 0 →
        c.check = .error .InvalidTable)) ∧
    (c.check = .ok () ↔
      ((∀ kv ∈ c.table, ¬(kv.2 < 0 ∨ (c.inversed = true ∧ kv.2 = 0))) ∧
       ∃ kv ∈ c.table, 0 < kv.2)) := by
  refine ⟨⟨?_, ?_, ?_⟩, check_ok_iff c⟩
  · intro hempty
    unfold Config.check
    rw [if_neg (by simp [hempty]), if_neg (by simp [hempty])]
  · intro kv hkv hneg
    unfold Config.check
    rw [if_pos ⟨kv, hkv, Or.inl hneg⟩]
  · intro hinv kv hkv hzero
    unfold Config.check
    rw [if_pos ⟨kv, hkv, Or.inr ⟨hinv, hzero⟩⟩]

/-- C6: in non-repetitive mode, a requested amount larger than the picker's
table (`pick`/`pick_indexes`) is rejected with `InvalidAmount` before any
random byte is drawn — the random stream is returned untouched, so the
rejection loop is never entered — and likewise `calc_probabilities` rejects
an amount larger than its table with `InvalidAmount`. -/
theorem claim_C6 (c : Config K) (p : PickerM K) (amount k2 par : ℕ)
    (rng : List ℕ) (hb : Picker.build c = .ok p)
    (hrep : c.repetitive = false) (hA : p.table.length < amount)
    (hk : c.table.length < k2) :
    p.pick_indexes amount rng = (.error .InvalidAmount, rng) ∧
    calc_probabilities par c k2 = .error .InvalidAmount := by
  obtain ⟨-, -, -, -, hprep⟩ := build_spec hb
  constructor
  · exact pick_indexes_guard p amount rng (hprep.trans hrep) hA
  · unfold calc_probabilities
    rw [if_neg (by omega), if_pos ⟨hrep, hk⟩]

theorem claim_C6_witness :
    (Picker.build (⟨[(0, 1)], false, false⟩ : Config ℕ) =
      .ok ⟨[(0, 1)], [1], 1, false⟩) ∧
    PickerM.pick_indexes (K := ℕ) ⟨[(0, 1)], [1], 1, false⟩ 2 [7, 8, 9] =
      (.error .InvalidAmount, [7, 8, 9]) ∧
    calc_probabilities 4 (⟨[(0, 1)], false, false⟩ : Config ℕ) 2 =
      .error .InvalidAmount := by
  have hchk : Config.check (⟨[(0, 1)], false, false⟩ : Config ℕ) = .ok () := by
    unfold Config.check
    rw [if_neg, if_pos]
    · exact ⟨(0, 1), by norm_num⟩
    · rintro ⟨kv, hkv, hbad⟩
      rw [List.mem_singleton] at hkv
      rw [hkv] at hbad
      norm_num at hbad
  have hb : Picker.build (⟨[(0, 1)], false, false⟩ : Config ℕ) =
      .ok ⟨[(0, 1)], [1], 1, false⟩ := by
    unfold Picker.build
    rw [vec_table_of_check hchk]
    show Except.ok _ = _
    have hraw : Config.rawTable (⟨[(0, 1)], false, false⟩ : Config ℕ) =
        [(0, 1)] := by
      unfold Config.rawTable
      rw [if_pos rfl]
      norm_num [List.filter_cons]
    rw [hraw]
    norm_num [cumGrid]
  have h := claim_C6 (⟨[(0, 1)], false, false⟩ : Config ℕ)
    ⟨[(0, 1)], [1], 1, false⟩ 2 2 4 [7, 8, 9] hb rfl (by norm_num)
    (by norm_num)
  exact ⟨hb, h.1, h.2⟩

/-! ## `pick_index` search lemmas -/

theorem cumGrid_length (l : List ℚ) : ∀ cur, (cumGrid l cur).length = l.length := by
  induction l with
  | nil => intro cur; rfl
  | cons v rest ih => intro cur; simp [cumGrid, ih]

theorem gridScan_shift (val : ℚ) :
    ∀ (l : List ℚ) (i : ℕ),
      gridScan val l (i + 1) = (gridScan val l i).map (· + 1) := by
  intro l
  induction l with
  | nil => intro i; rfl
  | cons v rest ih =>
    intro i
    unfold gridScan
    by_cases h : val ≤ v
    · rw [if_pos h, if_pos h]
      rfl
    · rw [if_neg h, if_neg h, ih]

theorem gridScan_zero_some {val : ℚ} :
    ∀ {l : List ℚ} {j : ℕ}, gridScan val l 0 = some j →
      j < l.length ∧ val ≤ l.getD j 0 ∧ ∀ m < j, l.getD m 0 < val := by
  intro l
  induction l with
  | nil => intro j h; exact absurd h (by simp [gridScan])
  | cons v rest ih =>
    intro j h
    unfold gridScan at h
    by_cases hv : val ≤ v
    · rw [if_pos hv] at h
      have hj : j = 0 := (Option.some.inj h).symm
      subst hj
      exact ⟨by simp, by simpa using hv, by omega⟩
    · rw [if_neg hv, gridScan_shift] at h
      obtain ⟨j', hj', hjeq⟩ := Option.map_eq_some'.mp h
      obtain ⟨h1, h2, h3⟩ := ih hj'
      subst hjeq
      refine ⟨by simpa using h1, by simpa using h2, ?_⟩
      intro m hm
      cases m with
      | zero =>
        rw [List.getD_cons_zero]
        exact lt_of_not_le hv
      | succ m' =>
        rw [List.getD_cons_succ]
        exact h3 m' (by omega)

theorem gridScan_zero_none {val : ℚ} :
    ∀ {l : List ℚ}, gridScan val l 0 = none →
      ∀ m < l.length, l.getD m 0 < val := by
  intro l
  induction l with
  | nil => intro _ m hm; simp at hm
  | cons v rest ih =>
    intro h m hm
    unfold gridScan at h
    by_cases hv : val ≤ v
    · rw [if_pos hv] at h
      exact absurd h (by simp)
    · rw [if_neg hv, gridScan_shift] at h
      have hrest := ih (Option.map_eq_none'.mp h)
      cases m with
      | zero =>
        rw [List.getD_cons_zero]
        exact lt_of_not_le hv
      | succ m' =>
        rw [List.getD_cons_succ]
        exact hrest m' (by simpa using hm)

/-- C8: for every successfully built picker and every 4-byte draw value,
`pick_index` returns the first grid index whose cumulative sum is at least
the scaled draw value, and the last table index when the search finds no
such entry; in particular the result is always strictly below the table
length (the function is total — no panic). -/
theorem claim_C8 (c : Config K) (p : PickerM K) (r : ℕ)
    (hb : Picker.build c = .ok p) :
    p.pick_index r < p.table.length ∧
    (∀ j < p.pick_index r, p.grid.getD j 0 < p.scaled r) ∧
    (p.scaled r ≤ p.grid.getD (p.pick_index r) 0 ∨
      (gridScan (p.scaled r) p.grid 0 = none ∧
        p.pick_index r = p.table.length - 1)) := by
  obtain ⟨hchk, htbl, hgrid, -, -⟩ := build_spec hb
  have hglen : p.grid.length = p.table.length := by
    rw [hgrid, htbl, cumGrid_length]
    simp
  have htne : p.table ≠ [] := by
    rw [htbl]
    exact rawTable_ne_nil hchk
  have htpos : 0 < p.table.length := List.length_pos.mpr htne
  cases hscan : gridScan (p.scaled r) p.grid 0 with
  | some i =>
    have hpi : p.pick_index r = i := by
      unfold PickerM.pick_index
      rw [hscan]
    obtain ⟨h1, h2, h3⟩ := gridScan_zero_some hscan
    rw [hpi]
    exact ⟨by omega, h3, Or.inl h2⟩
  | none =>
    have hpi : p.pick_index r = p.table.length - 1 := by
      unfold PickerM.pick_index
      rw [hscan]
    have hall := gridScan_zero_none hscan
    rw [hpi]
    refine ⟨by omega, ?_, Or.inr ⟨rfl, rfl⟩⟩
    intro j hj
    exact hall j (by omega)

theorem claim_C8_witness :
    (Picker.build (⟨[(0, 1), (1, 3)], false, false⟩ : Config ℕ) =
      .ok ⟨[(0, 1), (1, 3)], [1, 4], 4, false⟩) ∧
    PickerM.pick_index (K := ℕ) ⟨[(0, 1), (1, 3)], [1, 4], 4, false⟩ 0 <
      ([((0 : ℕ), (1 : ℚ)), (1, 3)]).length := by
  have hchk : Config.check (⟨[(0, 1), (1, 3)], false, false⟩ : Config ℕ) =
      .ok () := by
    unfold Config.check
    rw [if_neg, if_pos]
    · exact ⟨(0, 1), by norm_num⟩
    · rintro ⟨kv, hkv, hbad⟩
      rcases List.mem_cons.mp hkv with h | h
      · rw [h] at hbad; norm_num at hbad
      · rw [List.mem_singleton] at h; rw [h] at hbad; norm_num at hbad
  have hb : Picker.build (⟨[(0, 1), (1, 3)], false, false⟩ : Config ℕ) =
      .ok ⟨[(0, 1), (1, 3)], [1, 4], 4, false⟩ := by
    unfold Picker.build
    rw [vec_table_of_check hchk]
    show Except.ok _ = _
    have hraw : Config.rawTable (⟨[(0, 1), (1, 3)], false, false⟩ : Config ℕ) =
        [(0, 1), (1, 3)] := by
      unfold Config.rawTable
      rw [if_pos rfl]
      norm_num [List.filter_cons]
    rw [hraw]
    norm_num [cumGrid]
  exact ⟨hb,
    (claim_C8 (⟨[(0, 1), (1, 3)], false, false⟩ : Config ℕ)
      ⟨[(0, 1), (1, 3)], [1, 4], 4, false⟩ 0 hb).1⟩

/-- C10: `calc_probabilities` checks the amount against the raw table length
(zero-weight entries included) while the picker checks it against the
filtered table; for every valid non-inversed, non-repetitive table with a
zero-weight entry, at `k` = raw table size `calc_probabilities` succeeds
and assigns probability 1 to every item — the zero-weight one included —
while `pick_indexes` with the same amount returns `InvalidAmount`. -/
theorem claim_C10 (c : Config K) (z : K) (par : ℕ) (rng : List ℕ)
    (p : PickerM K) (hinv : c.inversed = false) (hrep : c.repetitive = false)
    (hchk : c.check = .ok ()) (hz : (z, (0 : ℚ)) ∈ c.table)
    (hb : Picker.build c = .ok p) :
    calc_probabilities par c c.table.length =
      .ok (c.table.map fun kv => (kv.1, 1)) ∧
    (z, (1 : ℚ)) ∈ (c.table.map fun kv => (kv.1, (1 : ℚ))) ∧
    p.table.length < c.table.length ∧
    p.pick_indexes c.table.length rng = (.error .InvalidAmount, rng) := by
  obtain ⟨-, htbl, -, -, hprep⟩ := build_spec hb
  have hlt : p.table.length < c.table.length := by
    rw [htbl]
    unfold Config.rawTable
    rw [if_pos hinv]
    apply List.length_filter_lt_length_iff_exists.mpr
    exact ⟨(z, 0), hz, by norm_num⟩
  refine ⟨calc_full_len c par hchk hrep, ?_, hlt, ?_⟩
  · exact List.mem_map.mpr ⟨(z, 0), hz, rfl⟩
  · exact pick_indexes_guard p c.table.length rng (hprep.trans hrep) hlt

theorem claim_C10_witness :
    ((⟨[(0, 1), (1, 0)], false, false⟩ : Config ℕ).check = .ok ()) ∧
    ((1, (0 : ℚ)) ∈ (⟨[(0, 1), (1, 0)], false, false⟩ : Config ℕ).table) ∧
    calc_probabilities 4 (⟨[(0, 1), (1, 0)], false, false⟩ : Config ℕ) 2 =
      .ok ([((0 : ℕ), (1 : ℚ)), (1, 1)]) ∧
    PickerM.pick_indexes (K := ℕ) ⟨[(0, 1)], [1], 1, false⟩ 2 [5] =
      (.error .InvalidAmount, [5]) := by
  have hchk : Config.check (⟨[(0, 1), (1, 0)], false, false⟩ : Config ℕ) =
      .ok () := by
    unfold Config.check
    rw [if_neg, if_pos]
    · exact ⟨(0, 1), by norm_num⟩
    · rintro ⟨kv, hkv, hbad⟩
      rcases List.mem_cons.mp hkv with h | h
      · rw [h] at hbad; norm_num at hbad
      · rw [List.mem_singleton] at h; rw [h] at hbad; norm_num at hbad
  have hb : Picker.build (⟨[(0, 1), (1, 0)], false, false⟩ : Config ℕ) =
      .ok ⟨[(0, 1)], [1], 1, false⟩ := by
    unfold Picker.build
    rw [vec_table_of_check hchk]
    show Except.ok _ = _
    have hraw : Config.rawTable
        (⟨[(0, 1), (1, 0)], false, false⟩ : Config ℕ) = [(0, 1)] := by
      unfold Config.rawTable
      rw [if_pos rfl]
      norm_num [List.filter_cons]
    rw [hraw]
    norm_num [cumGrid]
  have h := claim_C10 (⟨[(0, 1), (1, 0)], false, false⟩ : Config ℕ) 1 4 [5]
    ⟨[(0, 1)], [1], 1, false⟩ rfl rfl hchk (by norm_num) hb
  exact ⟨hchk, by norm_num, h.1, h.2.2.2⟩

/-! ## Schedule invariance of the parallel phase -/

theorem calcGroups_mem_lt {par n : ℕ} {g : List ℕ} {i : ℕ}
    (hg : g ∈ calcGroups par n) (hi : i ∈ g) : i < n := by
  unfold calcGroups at hg
  obtain ⟨a, ha, hga⟩ := List.mem_map.mp hg
  subst hga
  obtain ⟨j, hj, hij⟩ := List.mem_filterMap.mp hi
  by_cases hcond : a * cntThreads par n + j < n
  · rw [if_pos hcond] at hij
    have := Option.some.inj hij
    omega
  · rw [if_neg hcond] at hij
    exact absurd hij (by simp)

theorem lookupLog_eq (F : ℕ → (ℕ → ℚ)) :
    ∀ (σ : List ℕ) (i : ℕ), i ∈ σ →
      lookupLog (σ.map fun x => (x, F x)) i = F i := by
  intro σ
  induction σ with
  | nil => intro i hi; exact absurd hi (List.not_mem_nil i)
  | cons a rest ih =>
    intro i hi
    unfold lookupLog
    rw [List.map_cons]
    by_cases hai : a = i
    · subst hai
      rw [List.find?_cons_of_pos _ (by simp)]
      rfl
    · rw [List.find?_cons_of_neg _ (by simpa using hai)]
      have hmem : i ∈ rest := by
        rcases List.mem_cons.mp hi with h | h
        · exact absurd h.symm hai
        · exact h
      exact ih i hmem

theorem calcGeneralSched_eq (σ : List ℕ) (par : ℕ) (table : List (K × ℚ))
    (k : ℕ) (hσ : ∀ i < table.length, i ∈ σ) :
    calcGeneralSched σ par table k = calcGeneral par table k := by
  unfold calcGeneralSched calcGeneral
  dsimp only
  congr 1
  apply List.foldl_ext
  intro acc g hg
  apply List.foldl_ext
  intro acc2 i hi
  have hin : i < table.length := calcGroups_mem_lt hg hi
  rw [lookupLog_eq (fun x => subResult (table.map Prod.snd) k x) σ i (hσ i hin)]

theorem sched_eq (σ : List ℕ) (par : ℕ) (c : Config K) (k : ℕ)
    (hσ : ∀ i < c.rawTable.length, i ∈ σ) :
    calcProbabilitiesSched σ par c k = calc_probabilities par c k := by
  unfold calcProbabilitiesSched calc_probabilities
  rcases eq_or_ne k 0 with h0 | h0
  · rw [if_pos h0, if_pos h0]
  · rw [if_neg h0, if_neg h0]
    by_cases h1 : c.repetitive = false ∧ c.table.length < k
    · rw [if_pos h1, if_pos h1]
    · rw [if_neg h1, if_neg h1]
      by_cases h2 : c.repetitive = false ∧ k = c.table.length
      · rw [if_pos h2, if_pos h2]
      · rw [if_neg h2, if_neg h2]
        by_cases h3 : c.repetitive = false ∧ c.is_fair = true
        · rw [if_pos h3, if_pos h3]
        · rw [if_neg h3, if_neg h3]
          cases hvt : c.vec_table with
          | error e => rfl
          | ok raw =>
            obtain ⟨-, hraw⟩ := vec_table_ok hvt
            show (if k = 1 then _ else _) = (if k = 1 then _ else _)
            by_cases hk1 : k = 1
            · rw [if_pos hk1, if_pos hk1]
            · rw [if_neg hk1, if_neg hk1]
              by_cases hrep : c.repetitive = true
              · rw [if_pos hrep, if_pos hrep]
              · rw [if_neg hrep, if_neg hrep]
                apply calcGeneralSched_eq
                intro i hi
                apply hσ
                rw [hraw] at hi
                simpa using hi

/-- C9: for one fixed `Config` value and pick amount, the probability
computation is deterministic: the exact path consumes no randomness, and
the only runtime nondeterminism — the order in which the spawned workers
complete, modelled by the explicit completion log order `σ` — cannot affect
the result, because `join` collects the workers' pure sub-results in spawn
order.  Two invocations under any two completion schedules covering the
spawned workers produce identical result tables. -/
theorem claim_C9 (c : Config K) (par k : ℕ) (σ₁ σ₂ : List ℕ)
    (h1 : ∀ i < c.rawTable.length, i ∈ σ₁)
    (h2 : ∀ i < c.rawTable.length, i ∈ σ₂) :
    calcProbabilitiesSched σ₁ par c k = calcProbabilitiesSched σ₂ par c k := by
  rw [sched_eq σ₁ par c k h1, sched_eq σ₂ par c k h2]

theorem claim_C9_witness :
    (∀ i < (Config.rawTable
        (⟨[(0, 1), (1, 3)], false, false⟩ : Config ℕ)).length, i ∈ [1, 0]) ∧
    calcProbabilitiesSched [1, 0] 4
        (⟨[(0, 1), (1, 3)], false, false⟩ : Config ℕ) 2 =
      calcProbabilitiesSched [0, 1, 5] 4
        (⟨[(0, 1), (1, 3)], false, false⟩ : Config ℕ) 2 := by
  have hraw : Config.rawTable (⟨[(0, 1), (1, 3)], false, false⟩ : Config ℕ) =
      [(0, 1), (1, 3)] := by
    unfold Config.rawTable
    rw [if_pos rfl]
    norm_num [List.filter_cons]
  have hc1 : ∀ i < (Config.rawTable
      (⟨[(0, 1), (1, 3)], false, false⟩ : Config ℕ)).length, i ∈ [1, 0] := by
    rw [hraw]
    decide
  have hc2 : ∀ i < (Config.rawTable
      (⟨[(0, 1), (1, 3)], false, false⟩ : Config ℕ)).length,
      i ∈ [0, 1, 5] := by
    rw [hraw]
    decide
  exact ⟨hc1, claim_C9 ⟨[(0, 1), (1, 3)], false, false⟩ 4 2 [1, 0] [0, 1, 5]
    hc1 hc2⟩

/-! ## Machinery for the probability-sum property -/

theorem filterMap_keep_all {n : ℕ} :
    ∀ (l : List ℕ), (∀ j ∈ l, j < n) →
      l.filterMap (fun j => if j < n then some j else none) = l := by
  intro l
  induction l with
  | nil => intro _; rfl
  | cons a rest ih =>
    intro h
    rw [List.filterMap_cons]
    rw [if_pos (h a (by simp))]
    rw [ih fun j hj => h j (List.mem_cons_of_mem _ hj)]

theorem filterMap_range_ge {n : ℕ} :
    ∀ (m : ℕ), n ≤ m →
      (List.range m).filterMap (fun j => if j < n then some j else none) =
        List.range n := by
  intro m
  induction m with
  | zero =>
    intro h
    have hn : n = 0 := by omega
    subst hn
    rfl
  | succ m ih =>
    intro h
    by_cases hnm : n ≤ m
    · rw [List.range_succ, List.filterMap_append, ih hnm]
      have hm : (List.filterMap (fun j => if j < n then some j else none)
          [m]) = [] := by
        simp [show ¬(m < n) by omega]
      rw [hm, List.append_nil]
    · have hn : n = m + 1 := by omega
      subst hn
      apply filterMap_keep_all
      intro j hj
      exact List.mem_range.mp hj

theorem calcGroups_single {par n : ℕ} (h : 1 ≤ n) :
    calcGroups par n = [List.range n] := by
  have hT : n ≤ cntThreads par n := le_max_right par n
  have hTpos : 0 < cntThreads par n := by omega
  have h1 : divCeil n (cntThreads par n) = 1 := by
    unfold divCeil
    apply Nat.div_eq_of_lt_le
    · omega
    · omega
  unfold calcGroups
  rw [h1]
  have hr1 : List.range 1 = [0] := rfl
  rw [hr1, List.map_cons, List.map_nil]
  congr 1
  have hz : ∀ j : ℕ, 0 * cntThreads par n + j = j := by intro j; omega
  have hfun : (fun j => if 0 * cntThreads par n + j < n then
      some (0 * cntThreads par n + j) else none) =
      fun j => if j < n then some j else none := by
    funext j
    rw [hz j]
  rw [hfun]
  exact filterMap_range_ge (cntThreads par n) hT

theorem addInto_length (w : ℚ) (sub : ℕ → ℚ) :
    ∀ (acc : List (K × ℚ)) (i0 : ℕ), (addInto w sub acc i0).length = acc.length := by
  intro acc
  induction acc with
  | nil => intro i0; rfl
  | cons kv rest ih => intro i0; simp [addInto, ih]

theorem addInto_sum (w : ℚ) (sub : ℕ → ℚ) :
    ∀ (acc : List (K × ℚ)) (i0 : ℕ),
      ((addInto w sub acc i0).map Prod.snd).sum =
        (acc.map Prod.snd).sum + w * ((List.range' i0 acc.length).map sub).sum := by
  intro acc
  induction acc with
  | nil => intro i0; simp [addInto]
  | cons kv rest ih =>
    intro i0
    rw [show addInto w sub (kv :: rest) i0 =
      (kv.1, kv.2 + w * sub i0) :: addInto w sub rest (i0 + 1) from rfl]
    rw [List.map_cons, List.sum_cons, ih (i0 + 1), List.length_cons,
      List.range'_succ]
    rw [List.map_cons]
    rw [List.sum_cons]
    rw [List.map_cons]
    rw [List.sum_cons]
    rw [mul_add]
    ring

theorem addInto_sum_zero (w : ℚ) (sub : ℕ → ℚ) (acc : List (K × ℚ)) :
    ((addInto w sub acc 0).map Prod.snd).sum =
      (acc.map Prod.snd).sum + w * indexSum acc.length sub := by
  rw [addInto_sum w sub acc 0]
  unfold indexSum
  rw [List.range_eq_range']

theorem fold_addInto_sum (tv : List ℚ) (sub : ℕ → (ℕ → ℚ)) :
    ∀ (L : List ℕ) (acc : List (K × ℚ)),
      ((L.foldl (fun a i => addInto (tv.getD i 0) (sub i) a 0) acc).map
          Prod.snd).sum =
        (acc.map Prod.snd).sum +
          (L.map fun i => tv.getD i 0 * indexSum acc.length (sub i)).sum := by
  intro L
  induction L with
  | nil => intro acc; simp
  | cons i L ih =>
    intro acc
    rw [List.foldl_cons, ih, addInto_sum_zero, addInto_length,
      List.map_cons, List.sum_cons]
    ring

theorem sum_map_div (l : List ℚ) (c : ℚ) :
    (l.map fun x => x / c).sum = l.sum / c := by
  induction l with
  | nil => simp
  | cons v rest ih => simp [ih, add_div]

theorem sum_map_const (l : List (K × ℚ)) (q : ℚ) :
    ((l.map fun _ => q)).sum = (l.length : ℚ) * q := by
  induction l with
  | nil => simp
  | cons kv rest ih =>
    rw [List.map_cons, List.sum_cons, ih, List.length_cons]
    push_cast
    ring

theorem sum_getD_range :
    ∀ (l : List ℚ), ((List.range l.length).map fun i => l.getD i 0).sum = l.sum := by
  intro l
  induction l with
  | nil => rfl
  | cons v rest ih =>
    rw [List.length_cons, List.range_succ_eq_map, List.map_cons,
      List.sum_cons, List.map_map]
    have hfun : ((fun i => (v :: rest).getD i 0) ∘ Nat.succ) =
        fun i => rest.getD i 0 := by
      funext i
      simp [Function.comp, List.getD_cons_succ]
    rw [List.getD_cons_zero, hfun, ih, List.sum_cons]

theorem raw_facts (c : Config K) (hpos : ∀ kv ∈ c.table, 0 < kv.2) :
    c.rawTable.length = c.table.length ∧ ∀ kv ∈ c.rawTable, 0 < kv.2 := by
  unfold Config.rawTable
  by_cases hinv : c.inversed = false
  · rw [if_pos hinv]
    have hself : c.table.filter (fun kv => decide (0 < kv.2)) = c.table :=
      List.filter_eq_self.mpr fun kv hkv => by simpa using hpos kv hkv
    rw [hself]
    exact ⟨rfl, hpos⟩
  · rw [if_neg hinv]
    refine ⟨by simp, ?_⟩
    intro kv hkv
    obtain ⟨kv0, hkv0, heq⟩ := List.mem_map.mp hkv
    rw [← heq]
    exact one_div_pos.mpr (hpos kv0 hkv0)

theorem getD_replicate_false {n j : ℕ} (h : j < n) :
    (List.replicate n false).getD j true = false := by
  rw [List.getD_eq_getElem _ _ (by simpa using h), List.getElem_replicate]

theorem unpickedFrom_replicate (n : ℕ) :
    unpickedFrom (List.replicate n false) 0 = List.range n := by
  unfold unpickedFrom
  rw [List.drop_zero, List.length_replicate]
  apply List.filter_eq_self.mpr
  intro j hj
  rw [getD_replicate_false (List.mem_range.mp hj)]
  rfl

theorem count_true_pickedInit :
    ∀ (n i : ℕ), i < n → (pickedInit n i).count true = 1 := by
  intro n
  induction n with
  | zero => intro i hi; omega
  | succ m ih =>
    intro i hi
    cases i with
    | zero =>
      show ((false :: List.replicate m false).set 0 true).count true = 1
      rw [List.set_cons_zero]
      simp [List.count_cons, List.count_replicate]
    | succ j =>
      show ((false :: List.replicate m false).set (j + 1) true).count true = 1
      rw [List.set_cons_succ]
      have := ih j (by omega)
      unfold pickedInit at this
      simp [List.count_cons, this]

theorem unpickedFrom_pickedInit {n i : ℕ} (h : i < n) :
    unpickedFrom (pickedInit n i) 0 = (List.range n).erase i := by
  unfold pickedInit
  rw [unpickedFrom_set_true (by simpa using h) (getD_replicate_false h),
    unpickedFrom_replicate]

theorem getD_mem {l : List ℚ} {j : ℕ} (h : j < l.length) : l.getD j 0 ∈ l := by
  rw [List.getD_eq_getElem _ _ h]
  exact List.getElem_mem h

theorem subResult_sum (tv : List ℚ) (k i : ℕ)
    (hpos : ∀ q ∈ tv, 0 < q) (hi : i < tv.length)
    (hk2 : 2 ≤ k) (hkn : k ≤ tv.length) :
    indexSum tv.length (subResult tv k i) = (k : ℚ) - 1 := by
  unfold subResult
  have hlen : (pickedInit tv.length i).length = tv.length := by
    unfold pickedInit
    simp
  have hcnt : (pickedInit tv.length i).count true = 1 :=
    count_true_pickedInit tv.length i hi
  rw [runCalc_new hlen (by omega), hcnt]
  have hmem : i ∈ List.range tv.length := List.mem_range.mpr hi
  have hsum := sum_nodeGen tv (k - 1) (pickedInit tv.length i) 1 hlen
    (by
      intro j hj
      rw [unpickedFrom_pickedInit hi] at hj
      have hjn := List.mem_range.mp (List.mem_of_mem_erase hj)
      exact hpos _ (getD_mem hjn))
    (by
      rw [unpickedFrom_pickedInit hi, List.length_erase_of_mem hmem,
        List.length_range]
      omega)
  rw [hsum, mul_one]
  have hk1 : (1 : ℕ) ≤ k := by omega
  push_cast [Nat.cast_sub hk1]
  ring

/-- C2 (amended): for every valid table all of whose weights are strictly
positive, with `repetitive = false` and `1 ≤ k < tableSize`, the
probabilities returned by `calc_probabilities` sum exactly to `k` over
exact arithmetic.  (The restriction to strictly positive weights is forced
by the counterexample: zero-weight entries are filtered out before the
general enumeration, which then draws from fewer than `tableSize` items.) -/
theorem claim_C2 (c : Config K) (par k : ℕ)
    (hchk : c.check = .ok ()) (hrep : c.repetitive = false)
    (hpos : ∀ kv ∈ c.table, 0 < kv.2)
    (hk1 : 1 ≤ k) (hk2 : k < c.table.length) :
    ∃ res, calc_probabilities par c k = .ok res ∧
      (res.map Prod.snd).sum = (k : ℚ) := by
  have hn1 : 1 ≤ c.table.length := by omega
  have hnq : ((c.table.length : ℚ)) ≠ 0 := Nat.cast_ne_zero.mpr (by omega)
  unfold calc_probabilities
  rw [if_neg (by omega),
    if_neg (by rintro ⟨-, h⟩; omega),
    if_neg (by rintro ⟨-, h⟩; omega)]
  by_cases hfair : c.repetitive = false ∧ c.is_fair = true
  · rw [if_pos hfair]
    refine ⟨_, rfl, ?_⟩
    rw [List.map_map]
    have hconst : (Prod.snd ∘ fun kv : K × ℚ =>
        (kv.1, (k : ℚ) / (c.table.length : ℚ))) =
        fun _ : K × ℚ => (k : ℚ) / (c.table.length : ℚ) := rfl
    rw [hconst, sum_map_const]
    field_simp
  · rw [if_neg hfair, vec_table_of_check hchk]
    obtain ⟨hlenraw, hposraw⟩ := raw_facts c hpos
    have hrawne : c.rawTable ≠ [] := rawTable_ne_nil hchk
    dsimp only
    set G : ℚ := (c.rawTable.map Prod.snd).sum with hG
    have hGpos : 0 < G := by
      apply List.sum_pos
      · intro x hx
        obtain ⟨kv, hkv, hkvx⟩ := List.mem_map.mp hx
        rw [← hkvx]
        exact hposraw kv hkv
      · simpa using hrawne
    set table : List (K × ℚ) := c.rawTable.map fun kv => (kv.1, kv.2 / G)
      with htb
    have htlen : table.length = c.table.length := by
      rw [htb, List.length_map, hlenraw]
    have htv : table.map Prod.snd =
        (c.rawTable.map Prod.snd).map fun x => x / G := by
      rw [htb, List.map_map, List.map_map]
      rfl
    have htsum : (table.map Prod.snd).sum = 1 := by
      rw [htv, sum_map_div, ← hG, div_self (ne_of_gt hGpos)]
    have htpos : ∀ q ∈ table.map Prod.snd, 0 < q := by
      intro q hq
      rw [htv] at hq
      obtain ⟨x, hx, hxq⟩ := List.mem_map.mp hq
      rw [← hxq]
      refine div_pos ?_ hGpos
      obtain ⟨kv, hkv, hkvx⟩ := List.mem_map.mp hx
      rw [← hkvx]
      exact hposraw kv hkv
    by_cases hkone : k = 1
    · rw [if_pos hkone]
      refine ⟨table, rfl, ?_⟩
      rw [htsum, hkone]
      norm_num
    · rw [if_neg hkone, if_neg (by rw [hrep]; simp)]
      unfold calcGeneral
      dsimp only
      refine ⟨_, rfl, ?_⟩
      rw [calcGroups_single (by rw [htlen]; omega)]
      rw [List.foldl_cons, List.foldl_nil]
      rw [fold_addInto_sum]
      have hlm : (table.map Prod.snd).length = table.length :=
        List.length_map table Prod.snd
      have hsub : ∀ i ∈ List.range table.length,
          (table.map Prod.snd).getD i 0 *
            indexSum table.length (subResult (table.map Prod.snd) k i) =
          (table.map Prod.snd).getD i 0 * ((k : ℚ) - 1) := by
        intro i hi
        have hi' : i < (table.map Prod.snd).length := by
          rw [hlm]
          exact List.mem_range.mp hi
        rw [show table.length = (table.map Prod.snd).length from hlm.symm,
          subResult_sum (table.map Prod.snd) k i htpos hi' (by omega)
            (by rw [hlm, htlen]; omega)]
      rw [List.map_congr_left hsub, htsum]
      have hfac : (List.range table.length).map
          (fun i => (table.map Prod.snd).getD i 0 * ((k : ℚ) - 1)) =
          (List.range table.length).map
            (fun i => ((k : ℚ) - 1) * (table.map Prod.snd).getD i 0) :=
        List.map_congr_left fun i _ => by ring
      rw [hfac, List.sum_map_mul_left,
        show List.range table.length =
          List.range (table.map Prod.snd).length from by rw [hlm],
        sum_getD_range, htsum]
      ring

theorem claim_C2_counterexample :
    (Config.check (⟨[(0, 0), (1, 0), (2, 1), (3, 1)], false, false⟩ :
        Config ℕ) = .ok ()) ∧
    (⟨[(0, 0), (1, 0), (2, 1), (3, 1)], false, false⟩ :
        Config ℕ).repetitive = false ∧
    1 ≤ 3 ∧
    3 < (⟨[(0, 0), (1, 0), (2, 1), (3, 1)], false, false⟩ :
        Config ℕ).table.length ∧
    calc_probabilities 4
        (⟨[(0, 0), (1, 0), (2, 1), (3, 1)], false, false⟩ : Config ℕ) 3 =
      .ok [(2, 1), (3, 1)] ∧
    (([((2 : ℕ), (1 : ℚ)), (3, 1)]).map Prod.snd).sum ≠ (3 : ℚ) := by
  have hchk : Config.check (⟨[(0, 0), (1, 0), (2, 1), (3, 1)], false, false⟩ :
      Config ℕ) = .ok () := by
    unfold Config.check
    rw [if_neg, if_pos]
    · exact ⟨(2, 1), by norm_num⟩
    · rintro ⟨kv, hkv, hbad⟩
      rcases List.mem_cons.mp hkv with h | hkv
      · rw [h] at hbad; norm_num at hbad
      rcases List.mem_cons.mp hkv with h | hkv
      · rw [h] at hbad; norm_num at hbad
      rcases List.mem_cons.mp hkv with h | hkv
      · rw [h] at hbad; norm_num at hbad
      rw [List.mem_singleton] at hkv
      rw [hkv] at hbad; norm_num at hbad
  have hraw : Config.rawTable (⟨[(0, 0), (1, 0), (2, 1), (3, 1)], false,
      false⟩ : Config ℕ) = [(2, 1), (3, 1)] := by
    unfold Config.rawTable
    rw [if_pos rfl]
    norm_num [List.filter_cons]
  have hfair : Config.is_fair (⟨[(0, 0), (1, 0), (2, 1), (3, 1)], false,
      false⟩ : Config ℕ) = false := by
    unfold Config.is_fair
    rw [hchk]
    show pairEqChain [(0 : ℚ), 0, 1, 1] = false
    norm_num [pairEqChain]
  -- values of the two walkers on the normalized table [1/2, 1/2]
  have hup10 : unpickedFrom [true, false] 0 = [1] := by decide
  have hup01 : unpickedFrom [false, true] 0 = [0] := by decide
  have hup11 : unpickedFrom [true, true] 0 = [] := by decide
  have hsub0 : subResult [1/2, 1/2] 3 0 =
      nodeGen [1/2, 1/2] singleF 2 0 [true, false]
        (([1].map fun i => ([1/2, 1/2] : List ℚ).getD i 0).sum) 1 := by
    unfold subResult
    rw [show pickedInit ([1/2, 1/2] : List ℚ).length 0 = [true, false] from
      by decide]
    rw [runCalc_new rfl (by decide)]
    rw [show ([true, false] : List Bool).count true = 1 from by decide]
    rw [hup10]
  have hsub1 : subResult [1/2, 1/2] 3 1 =
      nodeGen [1/2, 1/2] singleF 2 0 [false, true]
        (([0].map fun i => ([1/2, 1/2] : List ℚ).getD i 0).sum) 1 := by
    unfold subResult
    rw [show pickedInit ([1/2, 1/2] : List ℚ).length 1 = [false, true] from
      by decide]
    rw [runCalc_new rfl (by decide)]
    rw [show ([false, true] : List Bool).count true = 1 from by decide]
    rw [hup01]
  have hnode0 : ∀ j : ℕ,
      nodeGen [1/2, 1/2] singleF 2 0 [true, false]
        (([1].map fun i => ([1/2, 1/2] : List ℚ).getD i 0).sum) 1 j =
      singleF 1 1 j := by
    intro j
    rw [nodeGen_succ, hup10, List.map_cons, List.map_nil, List.sum_cons,
      List.sum_nil]
    rw [show ([true, false] : List Bool).set 1 true = [true, true] from
      by decide]
    rw [nodeGen_of_nil hup11]
    have harith : (1 : ℚ) * ([1/2, 1/2] : List ℚ).getD 1 0 /
        (([1].map fun i => ([1/2, 1/2] : List ℚ).getD i 0).sum) = 1 := by
      norm_num [List.getD_cons_succ, List.getD_cons_zero]
    simp only [Pi.add_apply, Pi.zero_apply, add_zero, harith]
  have hnode1 : ∀ j : ℕ,
      nodeGen [1/2, 1/2] singleF 2 0 [false, true]
        (([0].map fun i => ([1/2, 1/2] : List ℚ).getD i 0).sum) 1 j =
      singleF 0 1 j := by
    intro j
    rw [nodeGen_succ, hup01, List.map_cons, List.map_nil, List.sum_cons,
      List.sum_nil]
    rw [show ([false, true] : List Bool).set 0 true = [true, true] from
      by decide]
    rw [nodeGen_of_nil hup11]
    have harith : (1 : ℚ) * ([1/2, 1/2] : List ℚ).getD 0 0 /
        (([0].map fun i => ([1/2, 1/2] : List ℚ).getD i 0).sum) = 1 := by
      norm_num [List.getD_cons_zero]
    simp only [Pi.add_apply, Pi.zero_apply, add_zero, harith]
  refine ⟨hchk, rfl, by norm_num, by norm_num, ?_, by norm_num⟩
  unfold calc_probabilities
  rw [if_neg (by norm_num),
    if_neg (by rintro ⟨-, h⟩; norm_num at h),
    if_neg (by rintro ⟨-, h⟩; norm_num at h),
    if_neg (by rintro ⟨-, hf⟩; rw [hfair] at hf; exact absurd hf (by simp)),
    vec_table_of_check hchk]
  dsimp only
  rw [hraw]
  have htab2 : (([((2 : ℕ), (1 : ℚ)), (3, 1)]).map fun kv =>
      (kv.1, kv.2 / (List.map Prod.snd
        ([((2 : ℕ), (1 : ℚ)), (3, 1)])).sum)) = [(2, 1/2), (3, 1/2)] := by
    norm_num
  rw [htab2]
  rw [if_neg (by norm_num), if_neg (by simp)]
  unfold calcGeneral
  dsimp only
  rw [show List.map Prod.snd ([((2 : ℕ), (1 : ℚ)/2), (3, 1/2)]) =
    [1/2, 1/2] from rfl]
  rw [show ([((2 : ℕ), (1 : ℚ)/2), (3, 1/2)]).length = 2 from rfl]
  rw [show calcGroups 4 2 = [[0, 1]] from by decide]
  rw [List.foldl_cons, List.foldl_nil]
  rw [List.foldl_cons]
  rw [List.foldl_cons]
  rw [List.foldl_nil]
  rw [show ([1/2, 1/2] : List ℚ).getD 0 0 = 1/2 from rfl,
    show ([1/2, 1/2] : List ℚ).getD 1 0 = 1/2 from rfl]
  show Except.ok (addInto (1/2) (subResult [1/2, 1/2] 3 1)
    (addInto (1/2) (subResult [1/2, 1/2] 3 0) [(2, 1/2), (3, 1/2)] 0) 0) = _
  rw [hsub0, hsub1]
  show Except.ok [(2, 1/2 + 1/2 * _ +
      1/2 * nodeGen [1/2, 1/2] singleF 2 0 [false, true] _ 1 0),
    (3, 1/2 + 1/2 * _ + 1/2 * _)] = _
  rw [hnode0 0, hnode0 1, hnode1 0, hnode1 1]
  norm_num [singleF]

theorem claim_C2_witness :
    (Config.check (⟨[(0, 1), (1, 2)], false, false⟩ : Config ℕ) = .ok ()) ∧
    (∀ kv ∈ (⟨[(0, 1), (1, 2)], false, false⟩ : Config ℕ).table, 0 < kv.2) ∧
    (1 ≤ 1 ∧
      1 < (⟨[(0, 1), (1, 2)], false, false⟩ : Config ℕ).table.length) ∧
    ∃ res, calc_probabilities 4
        (⟨[(0, 1), (1, 2)], false, false⟩ : Config ℕ) 1 = .ok res ∧
      (res.map Prod.snd).sum = ((1 : ℕ) : ℚ) := by
  have hchk : Config.check (⟨[(0, 1), (1, 2)], false, false⟩ : Config ℕ) =
      .ok () := by
    unfold Config.check
    rw [if_neg, if_pos]
    · exact ⟨(0, 1), by norm_num⟩
    · rintro ⟨kv, hkv, hbad⟩
      rcases List.mem_cons.mp hkv with h | h
      · rw [h] at hbad; norm_num at hbad
      · rw [List.mem_singleton] at h; rw [h] at hbad; norm_num at hbad
  have hpos : ∀ kv ∈ (⟨[(0, 1), (1, 2)], false, false⟩ : Config ℕ).table,
      0 < kv.2 := by
    intro kv hkv
    rcases List.mem_cons.mp hkv with h | h
    · rw [h]; norm_num
    · rw [List.mem_singleton] at h; rw [h]; norm_num
  exact ⟨hchk, hpos, ⟨by norm_num, by norm_num⟩,
    claim_C2 (⟨[(0, 1), (1, 2)], false, false⟩ : Config ℕ) 4 1 hchk rfl hpos
      (by norm_num) (by norm_num)⟩

end RandomPicker
